import Mathlib

/-!
Verification of the Financial Analyzer core against its specification.

Part 1 models the completion client of `LLM_Request.py`: the retry loop of
`LLMRequest.process_text` and `Financial_Agent.analyze_financial_data`.
The transport is abstracted as a function from the attempt index to the
observed outcome of that attempt (an HTTP response with a status code and
an optional `choices` list, a timeout exception, or another request
exception).  A run records the timeout passed to each issued request, the
sleeps performed between attempts, and the returned dictionary
(`{"success": True, "content": c}` or `{"success": False, "error": e}`).
-/

/-- Outcome of one transport attempt, as observed by the retry loop of
`process_text` / `analyze_financial_data`.  `http status choices body`
abstracts a response object whose parsed JSON body contains the given
`choices` list (`none` when the key is absent; the strings are the
`message.content` of each choice). -/
inductive Outcome : Type where
  | http (status : Nat) (choices : Option (List String)) (body : String)
  | timeout
  | reqError (msg : String)
deriving DecidableEq

/-- The dictionary returned by `process_text` / `analyze_financial_data`:
`ok c` is `{"success": True, "content": c}`, `err e` is
`{"success": False, "error": e}`. -/
inductive LLMResult : Type where
  | ok (content : String)
  | err (error : String)
deriving DecidableEq

/-- Observable trace of one call: the timeout used by each issued attempt, in
order; the sleep durations (seconds) performed between attempts, in order;
and the returned result. -/
structure RunLog : Type where
  timeouts : List Nat
  sleeps : List Nat
  result : LLMResult
deriving DecidableEq

/-- `"Maximum retry attempts reached"` — the generic return after the loop
exhausts (line 133 / 277 of `LLM_Request.py`). -/
def maxRetriesMsg : String := "Maximum retry attempts reached"

/-- `f"Request timed out after {max_retries} attempts"` (line 123 / 267). -/
def timedOutMsg (max_retries : Nat) : String :=
  ("Request timed out after ") ++ (Nat.repr max_retries) ++ (" attempts")

/-- The retry loop of `LLMRequest.process_text` (lines 86-133 of
`LLM_Request.py`), iterating over the remaining attempt indices with the
current `timeout`:

* HTTP status 200 with a non-empty `choices` list returns success at once;
* any other response (status 200 with missing/empty `choices`, or a non-2xx
  status) falls through: if attempts remain, sleep `2 ** attempt`; either
  way the loop advances, and if it exhausts this way the function returns
  the generic `maxRetriesMsg`;
* a `requests.exceptions.Timeout`: if attempts remain, sleep 2 seconds and
  retry with `timeout + 30`, else return `timedOutMsg`;
* any other `requests.exceptions.RequestException e`: if attempts remain,
  sleep `2 ** attempt` and retry with the same timeout, else return
  `str(e)`. -/
def process_text_go (resp : Nat → Outcome) (max_retries : Nat)
    (timeout : Nat) : List Nat → RunLog
  | [] => ⟨[], [], LLMResult.err maxRetriesMsg⟩
  | attempt :: later =>
    match resp attempt with
    | Outcome.http status choices _body =>
      match status, choices with
      | 200, some (c :: _) => ⟨[timeout], [], LLMResult.ok c⟩
      | _, _ =>
        let rest := process_text_go resp max_retries timeout later
        ⟨timeout :: rest.timeouts,
         (if attempt < max_retries - 1 then [2 ^ attempt] else []) ++ rest.sleeps,
         rest.result⟩
    | Outcome.timeout =>
      if attempt < max_retries - 1 then
        let rest := process_text_go resp max_retries (timeout + 30) later
        ⟨timeout :: rest.timeouts, 2 :: rest.sleeps, rest.result⟩
      else ⟨[timeout], [], LLMResult.err (timedOutMsg max_retries)⟩
    | Outcome.reqError msg =>
      if attempt < max_retries - 1 then
        let rest := process_text_go resp max_retries timeout later
        ⟨timeout :: rest.timeouts, 2 ^ attempt :: rest.sleeps, rest.result⟩
      else ⟨[timeout], [], LLMResult.err msg⟩

/-- The retry loop of `Financial_Agent.analyze_financial_data`
(lines 231-277 of `LLM_Request.py`): a literal duplicate of the
`process_text` loop in the source, translated separately so that the shared
algorithm (claim C8) is a theorem, not an assumption. -/
def analyze_financial_data_go (resp : Nat → Outcome) (max_retries : Nat)
    (timeout : Nat) : List Nat → RunLog
  | [] => ⟨[], [], LLMResult.err maxRetriesMsg⟩
  | attempt :: later =>
    match resp attempt with
    | Outcome.http status choices _body =>
      match status, choices with
      | 200, some (c :: _) => ⟨[timeout], [], LLMResult.ok c⟩
      | _, _ =>
        let rest := analyze_financial_data_go resp max_retries timeout later
        ⟨timeout :: rest.timeouts,
         (if attempt < max_retries - 1 then [2 ^ attempt] else []) ++ rest.sleeps,
         rest.result⟩
    | Outcome.timeout =>
      if attempt < max_retries - 1 then
        let rest := analyze_financial_data_go resp max_retries (timeout + 30) later
        ⟨timeout :: rest.timeouts, 2 :: rest.sleeps, rest.result⟩
      else ⟨[timeout], [], LLMResult.err (timedOutMsg max_retries)⟩
    | Outcome.reqError msg =>
      if attempt < max_retries - 1 then
        let rest := analyze_financial_data_go resp max_retries timeout later
        ⟨timeout :: rest.timeouts, 2 ^ attempt :: rest.sleeps, rest.result⟩
      else ⟨[timeout], [], LLMResult.err msg⟩

/-- `LLMRequest.process_text(text, max_retries, timeout)` run against the
transport `resp`: the loop `for attempt in range(max_retries)` iterates the
attempt indices `0, 1, ..., max_retries - 1`. -/
def process_text (resp : Nat → Outcome) (max_retries : Nat) (timeout : Nat) :
    RunLog :=
  process_text_go resp max_retries timeout (List.range max_retries)

/-- `Financial_Agent.analyze_financial_data(text, max_retries, timeout)` run
against the transport `resp`. -/
def analyze_financial_data (resp : Nat → Outcome) (max_retries : Nat)
    (timeout : Nat) : RunLog :=
  analyze_financial_data_go resp max_retries timeout (List.range max_retries)

/-- `timeout = None` resolves to the instance's `default_timeout`
(lines 37-38 / 164-165). -/
def resolve_timeout (default_timeout : Nat) (timeout : Option Nat) : Nat :=
  timeout.getD default_timeout

/-! ### Helper lemmas about the retry loop -/

/-- The two retry loops are the same algorithm: `process_text_go` and
`analyze_financial_data_go` agree on every transport, retry budget, timeout
and attempt list. -/
theorem retry_loops_agree (resp : Nat → Outcome) (N : Nat) :
    ∀ t attempts, process_text_go resp N t attempts
      = analyze_financial_data_go resp N t attempts
  | t, [] => rfl
  | t, attempt :: later => by
    unfold process_text_go analyze_financial_data_go
    cases resp attempt with
    | http status choices body =>
      rcases status with _ | status <;> rcases choices with _ | ⟨_ | ⟨c, cs⟩⟩ <;>
        simp only [retry_loops_agree resp N t later]
    | timeout =>
      simp only [retry_loops_agree resp N (t + 30) later]
    | reqError msg =>
      simp only [retry_loops_agree resp N t later]

/-- Splitting the first element off a mapped `List.range`. -/
theorem range_map_shift (f : Nat → Nat) (k : Nat) :
    (List.range (k + 1)).map f = f 0 :: (List.range k).map (fun j => f (j + 1)) := by
  rw [List.range_succ_eq_map, List.map_cons, List.map_map]
  rfl

/-- Filtering `List.range n` by `· < m` keeps exactly `List.range m`
when `m ≤ n`. -/
theorem filter_range_lt (n : Nat) :
    ∀ m, m ≤ n →
      (List.range n).filter (fun i => decide (i < m)) = List.range m := by
  induction n with
  | zero =>
    intro m hm
    have hm0 : m = 0 := by omega
    subst hm0
    simp
  | succ n ih =>
    intro m hm
    rcases Nat.lt_or_ge m (n + 1) with h1 | h1
    · rw [List.range_succ, List.filter_append, ih m (by omega)]
      simp [show ¬ n < m by omega]
    · have hm1 : m = n + 1 := by omega
      subst hm1
      refine List.filter_eq_self.mpr ?_
      intro a ha
      simp only [List.mem_range] at ha
      simp [ha]

/-- All-timeouts trace of the `process_text` loop over the attempt indices
`a, a+1, ..., a+k-1` (with `a + k = N`): one attempt per index, timeout
`t + 30*j` on the `j`-th of them, a 2-second sleep between consecutive
attempts, ending in `timedOutMsg`. -/
theorem go_all_timeout (resp : Nat → Outcome)
    (hresp : ∀ i, resp i = Outcome.timeout) (N : Nat) :
    ∀ k a t, a + k = N → 1 ≤ k →
      process_text_go resp N t (List.range' a k) =
        ⟨(List.range k).map (fun j => t + 30 * j),
         List.replicate (k - 1) 2, LLMResult.err (timedOutMsg N)⟩
  | 0, a, t, hk, h1 => absurd h1 (by omega)
  | 1, a, t, hk, _ => by
    unfold process_text_go
    rw [List.range'_one]
    simp only [hresp a]
    rw [if_neg (by omega : ¬ a < N - 1)]
    simp [List.range_succ]
  | (k + 2), a, t, hk, _ => by
    rw [show List.range' a (k + 2) = a :: List.range' (a + 1) (k + 1) from rfl]
    unfold process_text_go
    simp only [hresp a]
    rw [if_pos (by omega : a < N - 1),
      go_all_timeout resp hresp N (k + 1) (a + 1) (t + 30) (by omega) (by omega)]
    simp only [RunLog.mk.injEq]
    rw [range_map_shift (fun j => t + 30 * j) (k + 1)]
    refine ⟨?_, rfl, trivial⟩
    simp only [Nat.mul_zero, Nat.add_zero, List.cons.injEq, true_and]
    exact List.map_congr_left (fun j _ => by omega)

/-- All-connection-errors trace of the `process_text` loop over the attempt
indices `a, ..., a+k-1` (with `a + k = N`): every attempt uses the unchanged
timeout `t`, sleeps `2^attempt` between attempts, ending in the error
detail `msg`. -/
theorem go_all_reqError (resp : Nat → Outcome) (msg : String)
    (hresp : ∀ i, resp i = Outcome.reqError msg) (N : Nat) :
    ∀ k a t, a + k = N → 1 ≤ k →
      process_text_go resp N t (List.range' a k) =
        ⟨List.replicate k t,
         (List.range (k - 1)).map (fun j => 2 ^ (a + j)),
         LLMResult.err msg⟩
  | 0, a, t, hk, h1 => absurd h1 (by omega)
  | 1, a, t, hk, _ => by
    unfold process_text_go
    rw [List.range'_one]
    simp only [hresp a]
    rw [if_neg (by omega : ¬ a < N - 1)]
    simp
  | (k + 2), a, t, hk, _ => by
    rw [show List.range' a (k + 2) = a :: List.range' (a + 1) (k + 1) from rfl]
    unfold process_text_go
    simp only [hresp a]
    rw [if_pos (by omega : a < N - 1),
      go_all_reqError resp msg hresp N (k + 1) (a + 1) t (by omega) (by omega)]
    simp only [RunLog.mk.injEq]
    refine ⟨rfl, ?_, trivial⟩
    rw [show k + 1 - 1 = k from rfl, show k + 2 - 1 = k + 1 from rfl,
      range_map_shift (fun j => 2 ^ (a + j)) k]
    simp only [Nat.add_zero, List.cons.injEq, true_and]
    exact List.map_congr_left (fun j _ => by
      rw [show a + 1 + j = a + (j + 1) by omega])

/-- All-attempts-200-without-usable-choices trace of the `process_text`
loop: every attempt falls through the soft-failure path (backoff
`2^attempt` while attempts remain, unchanged timeout) and the loop ends
with the generic `maxRetriesMsg`. -/
theorem go_all_nochoice (resp : Nat → Outcome) (ch : Option (List String))
    (b : String) (hch : ch = none ∨ ch = some [])
    (hresp : ∀ i, resp i = Outcome.http 200 ch b) (N : Nat) :
    ∀ k a t, a + k = N →
      process_text_go resp N t (List.range' a k) =
        ⟨List.replicate k t,
         ((List.range' a k).filter (fun i => decide (i < N - 1))).map (fun i => 2 ^ i),
         LLMResult.err maxRetriesMsg⟩
  | 0, a, t, hk => by simp [process_text_go]
  | (k + 1), a, t, hk => by
    rw [show List.range' a (k + 1) = a :: List.range' (a + 1) k from rfl]
    unfold process_text_go
    simp only [hresp a]
    have ih := go_all_nochoice resp ch b hch hresp N k (a + 1) t (by omega)
    rcases hch with rfl | rfl <;>
      simp only [ih, RunLog.mk.injEq, List.filter_cons] <;>
      refine ⟨rfl, ?_, trivial⟩ <;>
      by_cases h2 : a < N - 1 <;>
      simp [h2]

/-- The timeout value in effect for attempt `i` of a run that starts at
attempt `a` with timeout `t`: increased by 30 exactly when the preceding
attempt raised a timeout, carried over unchanged otherwise. -/
def timeoutFrom (resp : Nat → Outcome) (a t : Nat) : Nat → Nat
  | 0 => t
  | i + 1 => timeoutFrom resp a t i + (if resp (a + i) = Outcome.timeout then 30 else 0)

theorem timeoutFrom_succ_shift (resp : Nat → Outcome) (a t d : Nat)
    (hd : d = if resp a = Outcome.timeout then 30 else 0) :
    ∀ i, timeoutFrom resp (a + 1) (t + d) i = timeoutFrom resp a t (i + 1)
  | 0 => by simp [timeoutFrom, hd]
  | i + 1 => by
    simp only [timeoutFrom, timeoutFrom_succ_shift resp a t d hd i]
    rw [show a + 1 + i = a + (i + 1) by omega]

/-- The timeout log of the loop is an initial segment of `timeoutFrom`:
attempt `i` of the log was issued with timeout `timeoutFrom resp a t i`. -/
theorem go_timeouts_ex (resp : Nat → Outcome) (N : Nat) :
    ∀ k a t, ∃ n, (process_text_go resp N t (List.range' a k)).timeouts
      = (List.range n).map (timeoutFrom resp a t)
  | 0, a, t => ⟨0, by simp [process_text_go]⟩
  | (k + 1), a, t => by
    rw [show List.range' a (k + 1) = a :: List.range' (a + 1) k from rfl]
    unfold process_text_go
    split
    next status choices body heq =>
      split
      next c cs => exact ⟨1, by simp [List.range_succ, timeoutFrom]⟩
      next =>
        obtain ⟨n, hn⟩ := go_timeouts_ex resp N k (a + 1) t
        refine ⟨n + 1, ?_⟩
        simp only [hn, List.range_succ_eq_map, List.map_cons, List.map_map]
        refine congrArg₂ List.cons rfl ?_
        refine List.map_congr_left (fun j _ => ?_)
        simp only [Function.comp_apply]
        have hshift := timeoutFrom_succ_shift resp a t 0 (by rw [heq]; simp) j
        rw [Nat.add_zero] at hshift
        exact hshift
    next heq =>
      by_cases h2 : a < N - 1
      · rw [if_pos h2]
        obtain ⟨n, hn⟩ := go_timeouts_ex resp N k (a + 1) (t + 30)
        refine ⟨n + 1, ?_⟩
        simp only [hn, List.range_succ_eq_map, List.map_cons, List.map_map]
        refine congrArg₂ List.cons rfl ?_
        refine List.map_congr_left (fun j _ => ?_)
        simp only [Function.comp_apply]
        exact timeoutFrom_succ_shift resp a t 30 (by rw [heq]; simp) j
      · rw [if_neg h2]
        exact ⟨1, by simp [List.range_succ, timeoutFrom]⟩
    next msg heq =>
      by_cases h2 : a < N - 1
      · rw [if_pos h2]
        obtain ⟨n, hn⟩ := go_timeouts_ex resp N k (a + 1) t
        refine ⟨n + 1, ?_⟩
        simp only [hn, List.range_succ_eq_map, List.map_cons, List.map_map]
        refine congrArg₂ List.cons rfl ?_
        refine List.map_congr_left (fun j _ => ?_)
        simp only [Function.comp_apply]
        have hshift := timeoutFrom_succ_shift resp a t 0 (by rw [heq]; simp) j
        rw [Nat.add_zero] at hshift
        exact hshift
      · rw [if_neg h2]
        exact ⟨1, by simp [List.range_succ, timeoutFrom]⟩

/-! ### Request payloads

The request body built by each call (lines 74-84 and 219-229 of
`LLM_Request.py`): a fixed system prompt, the user text, a sampling
temperature, a maximum token count, and the (always disabled) streaming
flag.  Literal braces of the source prompt are written `\x7b`/`\x7d` and
apostrophes `\x27`. -/

structure Payload : Type where
  system_prompt : String
  user_content : String
  temperature : ℚ
  max_tokens : Nat
  stream : Bool
deriving DecidableEq

/-- The system prompt of `LLMRequest.process_text` (lines 40-72). -/
def process_text_system_prompt : String :=
  ("You are a smart financial accountant. You are given a text extracted from a financial document in the Assets section.\n")
  ++ ("You are thinking about how to take out the financial information that is valueable to capture the financial condition of the company. \n")
  ++ (".The collected information should be significant for fundamentals analysis. Then you return the information in a markdown format.\n")
  ++ ("\nSample Output Format:\n\n")
  ++ ("### Key Assets Overview (in VND million)\n\n")
  ++ ("| Asset Category                                      | As at 30/6/2022 | As at 31/12/2021 |\n")
  ++ ("|-----------------------------------------------------|-----------------|------------------|\n")
  ++ ("| **Cash, gold, silver and gemstones**                | 15,097,807      | 18,011,766       |\n")
  ++ ("| **Balances with the State Banks**                   | 28,813,961      | 22,506,711       |\n")
  ++ ("| **Balances with other credit institutions**         | 206,455,463     | 181,036,981      |\n")
  ++ ("| **Loans to other credit institutions**              | 50,081,519      | 48,727,565       |\n")
  ++ ("| **Provision for balances with and loans to others** | (1,000,000)     | 4,000,000        |\n")
  ++ ("| **Trading securities**                              | 3,150,052       | 2,766,098        |\n")
  ++ ("| **Derivatives and other financial assets**          | 303,202         | N/A              |\n")
  ++ ("| **Loans to customers**                              | 1,066,990,245   | 934,774,287      |\n")
  ++ ("| **Provision for loans to customers**                | (33,861,918)    | (25,975,668)     |\n")
  ++ ("| **Investment securities**                           | 191,407,933     | 170,604,700      |\n")
  ++ ("| **Available-for-sale securities**                   | 101,203,452     | 71,122,502       |\n")
  ++ ("| **Held-to-maturity securities**                     | 90,293,045      | 99,657,595       |\n")
  ++ ("| **Provision for investment securities**             | (88,564)        | (175,397)        |\n")
  ++ ("| **Capital contributions and long-term investments** | 2,380,804       | 2,346,176        |\n")
  ++ ("| **Fixed assets**                                    | 8,103,519       | 8,626,043        |\n")
  ++ ("| **Tangible fixed assets**                           | 5,249,947       | 5,552,624        |\n")
  ++ ("| **Intangible fixed assets**                         | 2,853,572       | 3,073,419        |\n")
  ++ ("| **Other assets**                                    | 30,199,661      | 28,969,058       |\n")
  ++ ("\n- If the information is not available, please return \"N/A\"\n")
  ++ ("- Don\x27t fabricate or make up any information\n\n")

/-- The system prompt of `Financial_Agent.analyze_financial_data`
(lines 167-217). -/
def analyze_financial_data_system_prompt : String :=
  ("You are a sophisticated financial analyst with expertise in investment analysis, risk assessment, and financial forecasting.\n")
  ++ ("Your task is to analyze the provided financial data. Your main task is to find and extract the income statement within the document for further analysis.\n")
  ++ ("\nThese are the information you need to extract:\n")
  ++ ("- Revenue: known as income of multiple sources, is the total amount of money earned by a company from all business activities before minus the expenses.\n")
  ++ ("- Cost: This represents the cost or the expenses incurred by the company to generate the revenue\n")
  ++ ("- Gross Profit: Profit before taxes\n")
  ++ ("- Operating Expenses: These include costs related to sales, marketing, research and development, and administrative expenses\n")
  ++ ("- Operating Income: Also known as earnings before interest and taxes (EBIT), operating income is gross profit minus operating expenses\n")
  ++ ("- Net Income: This is the bottom line, the profit after all expenses have been deducted from the revenue\n")
  ++ ("\n\n- Each information should be format into a key/value pair.\n")
  ++ ("Formatted your response in a json format below:\n\n")
  ++ ("\x7b\n")
  ++ ("    \"Revenue\": \x7b\n")
  ++ ("        \"value\": 100000,\n")
  ++ ("        \"from\": \"2022-01-01\",\n")
  ++ ("        \"to\": \"2022-12-31\"\n")
  ++ ("    \x7d,\n")
  ++ ("    \"Cost\": \x7b\n")
  ++ ("        \"value\": 50000,\n")
  ++ ("        \"from\": \"2022-01-01\",\n")
  ++ ("        \"to\": \"2022-12-31\"\n")
  ++ ("    \x7d,\n")
  ++ ("    \"Gross Profit\": \x7b\n")
  ++ ("        \"value\": 50000,\n")
  ++ ("        \"from\": \"2022-01-01\",\n")
  ++ ("        \"to\": \"2022-12-31\"\n")
  ++ ("    \x7d,\n")
  ++ ("    \"Operating Expenses\": \x7b\n")
  ++ ("        \"value\": 20000,\n")
  ++ ("        \"from\": \"2022-01-01\",\n")
  ++ ("        \"to\": \"2022-12-31\"\n")
  ++ ("    \x7d,\n")
  ++ ("    \"Operating Income\": \x7b\n")
  ++ ("        \"value\": 30000,\n")
  ++ ("        \"from\": \"2022-01-01\",\n")
  ++ ("        \"to\": \"2022-12-31\"\n")
  ++ ("    \x7d,\n")
  ++ ("    \"Net Income\": \x7b\n")
  ++ ("        \"value\": 20000,\n")
  ++ ("        \"from\": \"2022-01-01\",\n")
  ++ ("        \"to\": \"2022-12-31\"\n")
  ++ ("    \x7d\n")
  ++ ("\x7d\n")
  ++ ("### GIVE OUT THE FORMULAS USED TO CALCULATE THE VALUES.\n")
  ++ ("### IF YOU CANNOT FIND THE INFORMATION, PLEASE RETURN \"N/A\" FOR THE KEY/VALUE PAIR.\n\n")

/-- The payload of `LLMRequest.process_text` (lines 79-84): temperature 0.3,
max_tokens 1500, streaming disabled. -/
def process_text_payload (text : String) : Payload :=
  ⟨process_text_system_prompt, text, (3 : ℚ) / 10, 1500, false⟩

/-- The payload of `Financial_Agent.analyze_financial_data` (lines 224-229):
temperature 0.3, max_tokens 2000, streaming disabled. -/
def analyze_financial_data_payload (text : String) : Payload :=
  ⟨analyze_financial_data_system_prompt, text, (3 : ℚ) / 10, 2000, false⟩

/-! ### Claims about the completion client -/

/-- Claim C1: for every `max_retries = N ≥ 1` and a transport that raises a
timeout-class failure on every attempt, both `process_text` and
`analyze_financial_data` make exactly `N` attempts, attempt `k` (0-indexed)
is issued with timeout `initial_timeout + 30*k`, a fixed 2-second sleep is
performed between consecutive attempts, and the call returns the
timed-out-tagged failure. -/
theorem claim_C1_timeout_escalation (N t0 : Nat) (hN : 1 ≤ N) :
    process_text (fun _ => Outcome.timeout) N t0 =
      ⟨(List.range N).map (fun k => t0 + 30 * k), List.replicate (N - 1) 2,
        LLMResult.err (timedOutMsg N)⟩ ∧
    analyze_financial_data (fun _ => Outcome.timeout) N t0 =
      ⟨(List.range N).map (fun k => t0 + 30 * k), List.replicate (N - 1) 2,
        LLMResult.err (timedOutMsg N)⟩ := by
  have h := go_all_timeout (fun _ => Outcome.timeout) (fun _ => rfl) N N 0 t0
    (by omega) hN
  rw [← List.range_eq_range'] at h
  refine ⟨h, ?_⟩
  rw [analyze_financial_data, ← retry_loops_agree]
  exact h

theorem claim_C1_witness :
    process_text (fun _ => Outcome.timeout) 3 200 =
      ⟨(List.range 3).map (fun k => 200 + 30 * k), List.replicate 2 2,
        LLMResult.err (timedOutMsg 3)⟩ ∧
    analyze_financial_data (fun _ => Outcome.timeout) 3 200 =
      ⟨(List.range 3).map (fun k => 200 + 30 * k), List.replicate 2 2,
        LLMResult.err (timedOutMsg 3)⟩ :=
  claim_C1_timeout_escalation 3 200 (by decide)

/-- Claim C2: for every `max_retries = N ≥ 1` and a transport that raises a
connection-class (non-timeout) failure on every attempt, the client sleeps
`2^0, 2^1, ..., 2^(N-2)` seconds between the `N` attempts, issues every
attempt with the unchanged `initial_timeout`, and returns the
transport failure carrying the error detail after the `N`-th attempt. -/
theorem claim_C2_connection_backoff (N t0 : Nat) (msg : String) (hN : 1 ≤ N) :
    process_text (fun _ => Outcome.reqError msg) N t0 =
      ⟨List.replicate N t0, (List.range (N - 1)).map (fun k => 2 ^ k),
        LLMResult.err msg⟩ ∧
    analyze_financial_data (fun _ => Outcome.reqError msg) N t0 =
      ⟨List.replicate N t0, (List.range (N - 1)).map (fun k => 2 ^ k),
        LLMResult.err msg⟩ := by
  have h := go_all_reqError (fun _ => Outcome.reqError msg) msg (fun _ => rfl)
    N N 0 t0 (by omega) hN
  rw [← List.range_eq_range'] at h
  simp only [Nat.zero_add] at h
  refine ⟨h, ?_⟩
  rw [analyze_financial_data, ← retry_loops_agree]
  exact h

theorem claim_C2_witness :
    process_text (fun _ => Outcome.reqError ("Connection refused")) 3 90 =
      ⟨List.replicate 3 90, (List.range 2).map (fun k => 2 ^ k),
        LLMResult.err ("Connection refused")⟩ ∧
    analyze_financial_data (fun _ => Outcome.reqError ("Connection refused")) 3 90 =
      ⟨List.replicate 3 90, (List.range 2).map (fun k => 2 ^ k),
        LLMResult.err ("Connection refused")⟩ :=
  claim_C2_connection_backoff 3 90 ("Connection refused") (by decide)

/-- Claim C8: on every transport trace, retry budget and timeout, the
general-parsing call and the financial-analysis call run the identical
retry algorithm (same attempts, same per-attempt timeouts, same sleeps,
same tagged result), and their request payloads agree on temperature,
streaming flag and user text, differing only in the instruction template
and the maximum output length (1500 vs 2000 tokens). -/
theorem claim_C8_shared_retry_algorithm (resp : Nat → Outcome) (N t0 : Nat)
    (txt : String) :
    process_text resp N t0 = analyze_financial_data resp N t0 ∧
    (process_text_payload txt).temperature
      = (analyze_financial_data_payload txt).temperature ∧
    (process_text_payload txt).stream = (analyze_financial_data_payload txt).stream ∧
    (process_text_payload txt).user_content
      = (analyze_financial_data_payload txt).user_content ∧
    (process_text_payload txt).max_tokens = 1500 ∧
    (analyze_financial_data_payload txt).max_tokens = 2000 :=
  ⟨retry_loops_agree resp N t0 (List.range N), rfl, rfl, rfl, rfl, rfl⟩

/-- Claim C9 counterexample: a run whose every attempt is an HTTP 200
success with an empty `choices` list exhausts its retries and returns
exactly the generic `maxRetriesMsg` fallback — the same reason the spec
calls `MaxRetriesExceeded` — not a distinct `UnexpectedShape`-tagged
reason as the claim asserts. -/
theorem claim_C9_counterexample :
    (process_text (fun _ => Outcome.http 200 (some []) ("no choices here")) 3 100).result
      = LLMResult.err maxRetriesMsg ∧
    (process_text (fun _ => Outcome.http 200 none ("no choices here")) 3 100).result
      = LLMResult.err maxRetriesMsg := by
  constructor <;> rfl

/-- Claim C9 amended: when every attempt is an HTTP success whose body
lacks a non-empty `choices` list, the client exhausts its retry budget
(sleeping `2^attempt` between attempts, timeout unchanged) and returns the
generic `maxRetriesMsg` exhaustion fallback — there is no distinct
`UnexpectedShape`-tagged failure in the code. -/
theorem claim_C9_amended_generic_fallback (N t0 : Nat) (b : String)
    (ch : Option (List String)) (hch : ch = none ∨ ch = some []) (hN : 1 ≤ N) :
    process_text (fun _ => Outcome.http 200 ch b) N t0 =
      ⟨List.replicate N t0, (List.range (N - 1)).map (fun k => 2 ^ k),
        LLMResult.err maxRetriesMsg⟩ := by
  have h := go_all_nochoice (fun _ => Outcome.http 200 ch b) ch b hch
    (fun _ => rfl) N N 0 t0 (by omega)
  rw [← List.range_eq_range', filter_range_lt N (N - 1) (by omega)] at h
  exact h

theorem claim_C9_amended_witness :
    process_text (fun _ => Outcome.http 200 none ("resp")) 2 50 =
      ⟨List.replicate 2 50, (List.range 1).map (fun k => 2 ^ k),
        LLMResult.err maxRetriesMsg⟩ :=
  claim_C9_amended_generic_fallback 2 50 ("resp") none (Or.inl rfl) (by decide)

/-- Claim C10: within a single call, the timeout actually used by logged
attempt `i` is `timeoutFrom resp 0 t0 i`; that sequence is monotonically
non-decreasing, and it increases (by exactly 30) from attempt `i` to
attempt `i+1` precisely when attempt `i` raised a timeout-class failure —
after any other failure the previous value persists unchanged. -/
theorem claim_C10_timeout_monotone (resp : Nat → Outcome) (N t0 : Nat) :
    (∀ i (hi : i < ((process_text resp N t0).timeouts).length),
        ((process_text resp N t0).timeouts).get ⟨i, hi⟩ = timeoutFrom resp 0 t0 i) ∧
    (∀ i j, i ≤ j → timeoutFrom resp 0 t0 i ≤ timeoutFrom resp 0 t0 j) ∧
    (∀ i, timeoutFrom resp 0 t0 (i + 1)
        = timeoutFrom resp 0 t0 i + (if resp i = Outcome.timeout then 30 else 0)) := by
  refine ⟨?_, ?_, ?_⟩
  · intro i hi
    obtain ⟨n, hn⟩ := go_timeouts_ex resp N N 0 t0
    rw [← List.range_eq_range'] at hn
    have hn' : (process_text resp N t0).timeouts
        = (List.range n).map (timeoutFrom resp 0 t0) := hn
    rw [List.get_of_eq hn' ⟨i, hi⟩]
    simp only [List.get_eq_getElem, Fin.coe_cast, List.getElem_map, List.getElem_range]
  · intro i j hij
    induction j, hij using Nat.le_induction with
    | base => exact Nat.le_refl _
    | succ j hij ih =>
      refine Nat.le_trans ih ?_
      show timeoutFrom resp 0 t0 j ≤ timeoutFrom resp 0 t0 (j + 1)
      rw [timeoutFrom]
      exact Nat.le_add_right _ _
  · intro i
    rw [timeoutFrom, Nat.zero_add]

theorem claim_C10_witness :
    ((process_text (fun k => if k = 0 then Outcome.timeout else Outcome.reqError ("x"))
        3 100).timeouts).get ⟨2, by decide⟩
      = timeoutFrom (fun k => if k = 0 then Outcome.timeout else Outcome.reqError ("x")) 0 100 2 ∧
    timeoutFrom (fun k => if k = 0 then Outcome.timeout else Outcome.reqError ("x")) 0 100 1
      ≤ timeoutFrom (fun k => if k = 0 then Outcome.timeout else Outcome.reqError ("x")) 0 100 2 :=
  ⟨(claim_C10_timeout_monotone _ 3 100).1 2 (by decide),
   (claim_C10_timeout_monotone _ 3 100).2.1 1 2 (by decide)⟩

/-!
Part 2 models `extract_json_from_text` of `app.py` (lines 45-163): the
cascading JSON extraction and repair pipeline.  All text processing is over
`List Char`.  The regular expressions of the source are small enough that
each is translated as a direct deterministic scan with Python `re`
semantics (leftmost match; greedy / lazy quantifiers resolved by hand where
the pattern makes them deterministic).  Literal braces are written
`Char.ofNat 123` / `125`, backticks `Char.ofNat 96`, and in string
literals `\x7b`, `\x7d`, `\x60`, `\x27`.
-/

def lbrace : Char := Char.ofNat 123
def rbrace : Char := Char.ofNat 125
def bquote : Char := Char.ofNat 96
def squote : Char := Char.ofNat 39
def dquote : Char := Char.ofNat 34

/-- Python `re` whitespace `\s` (over the ASCII range):
space, tab, newline, carriage return, form feed, vertical tab.
(The source operates on ASCII-range text; the Unicode extension of `\s`
is not modelled.) -/
def isPySpace (c : Char) : Bool :=
  c = ' ' || c = Char.ofNat 9 || c = Char.ofNat 10 || c = Char.ofNat 13 ||
  c = Char.ofNat 12 || c = Char.ofNat 11

/-- Maximal whitespace prefix removed (the deterministic reading of a
greedy `\s*` followed by a non-whitespace literal). -/
def dropPySpaces : List Char → List Char
  | c :: cs => if isPySpace c then dropPySpaces cs else c :: cs
  | [] => []

/-- Python `str.strip()` on both ends (ASCII whitespace). -/
def pyStrip (l : List Char) : List Char :=
  ((l.dropWhile (fun c => isPySpace c)).reverse.dropWhile
    (fun c => isPySpace c)).reverse

def isDigitCh (c : Char) : Bool := '0' ≤ c && c ≤ '9'

/-! ### The three candidate locators (lines 57-69 of `app.py`) -/

/-- `\s*` then a literal three-backtick fence: the closing delimiter of the
fenced patterns (deterministic because a backtick is not whitespace). -/
def fenceAfter (l : List Char) : Bool :=
  match dropPySpaces l with
  | c1 :: c2 :: c3 :: _ => c1 = bquote && c2 = bquote && c3 = bquote
  | _ => false

/-- The lazy `[\s\S]*?})` before a closing fence: scanning right from the
opening brace, stop at the first `}` that is followed by `\s*` and a
three-backtick fence.  `acc` holds the reversed characters consumed so
far (including the opening brace). -/
def braceLazyEnd : List Char → List Char → Option (List Char)
  | _, [] => none
  | acc, c :: rest =>
    if c = rbrace && fenceAfter rest then some (acc.reverse ++ [rbrace])
    else braceLazyEnd (c :: acc) rest

/-- One attempt of the fenced pattern at the current position: the literal
`tag` (```` ```json ```` or ```` ``` ````), then `\s*`, then the captured
group `({[\s\S]*?})`, then `\s*` and the closing fence. -/
def fencedCaptureAt (tag : List Char) (l : List Char) : Option (List Char) :=
  if tag.isPrefixOf l then
    match dropPySpaces (l.drop tag.length) with
    | c :: rest => if c = lbrace then braceLazyEnd [lbrace] rest else none
    | [] => none
  else none

/-- `re.search` semantics: try the pattern at each position, left to right,
and return the first successful capture.  (Our patterns all require at
least one literal character, so the empty final position never matches.) -/
def findFirstCapture (f : List Char → Option (List Char)) :
    List Char → Option (List Char)
  | [] => none
  | c :: rest =>
    match f (c :: rest) with
    | some x => some x
    | none => findFirstCapture f rest

def fenceJsonTag : List Char := [bquote, bquote, bquote, 'j', 's', 'o', 'n']
def fenceBareTag : List Char := [bquote, bquote, bquote]

/-- Strategy 1 (line 58): ``` ```json\s*({[\s\S]*?})\s*``` ``` . -/
def findFencedJson (l : List Char) : Option (List Char) :=
  findFirstCapture (fencedCaptureAt fenceJsonTag) l

/-- Strategy 2 (line 63): ``` ```\s*({[\s\S]*?})\s*``` ``` . -/
def findFencedBare (l : List Char) : Option (List Char) :=
  findFirstCapture (fencedCaptureAt fenceBareTag) l

/-- The lazy `[\s\S]*?})` with nothing after it: stop at the first `}`. -/
def takeToFirstClose : List Char → List Char → Option (List Char)
  | _, [] => none
  | acc, c :: rest =>
    if c = rbrace then some (acc.reverse ++ [rbrace])
    else takeToFirstClose (c :: acc) rest

/-- One attempt of the bare-brace pattern `({[\s\S]*?})` at the current
position. -/
def braceSpanAt (l : List Char) : Option (List Char) :=
  match l with
  | c :: rest => if c = lbrace then takeToFirstClose [lbrace] rest else none
  | [] => none

/-- Strategy 3 (line 68): `({[\s\S]*?})` — from the first `{` to the first
`}` after it. -/
def findBraceSpan (l : List Char) : Option (List Char) :=
  findFirstCapture braceSpanAt l

/-- Lines 57-69: try the three locators in order; the first one that
*matches* supplies the single candidate `json_str` for the rest of the
pipeline (a later locator is consulted only when an earlier one finds no
match at all, not when its capture later fails to parse). -/
def locate_candidate (l : List Char) : Option (List Char) :=
  match findFencedJson l with
  | some cap => some cap
  | none =>
    match findFencedBare l with
    | some cap => some cap
    | none => findBraceSpan l

/-! ### The JSON value model and `json.loads` -/

/-- Parsed JSON values.  Numbers keep Python's `int` / `float` split:
`jint` for tokens without fraction or exponent, `jfloat m e` for the exact
decimal `m * 10^e` that a float token denotes (IEEE rounding of Python
floats is not modelled; no claim depends on float arithmetic).  Strings and
keys are character lists. -/
inductive JValue : Type where
  | jnull
  | jbool (b : Bool)
  | jint (n : Int)
  | jfloat (mantissa : Int) (exponent : Int)
  | jstr (s : List Char)
  | jarr (elems : List JValue)
  | jobj (members : List (List Char × JValue))

/-- JSON whitespace accepted by `json.loads` between tokens:
space, tab, newline, carriage return. -/
def isWsJ (c : Char) : Bool :=
  c = ' ' || c = Char.ofNat 9 || c = Char.ofNat 10 || c = Char.ofNat 13

def skipWsJ : List Char → List Char
  | c :: cs => if isWsJ c then skipWsJ cs else c :: cs
  | [] => []

def takeDigits : List Char → List Char × List Char
  | c :: cs =>
    if isDigitCh c then
      let p := takeDigits cs
      (c :: p.1, p.2)
    else ([], c :: cs)
  | [] => ([], [])

def digitsToNat (ds : List Char) : Nat :=
  ds.foldl (fun acc c => acc * 10 + (c.toNat - 48)) 0

def hexVal (c : Char) : Option Nat :=
  if '0' ≤ c && c ≤ '9' then some (c.toNat - 48)
  else if 'a' ≤ c && c ≤ 'f' then some (c.toNat - 97 + 10)
  else if 'A' ≤ c && c ≤ 'F' then some (c.toNat - 65 + 10)
  else none

def hex4 (a b c d : Char) : Option Nat :=
  match hexVal a, hexVal b, hexVal c, hexVal d with
  | some va, some vb, some vc, some vd => some (((va * 16 + vb) * 16 + vc) * 16 + vd)
  | _, _, _, _ => none

/-- Two-character escapes accepted by the Python decoder. -/
def escChar (c : Char) : Option Char :=
  if c = dquote then some dquote
  else if c = '\\' then some '\\'
  else if c = '/' then some '/'
  else if c = 'b' then some (Char.ofNat 8)
  else if c = 'f' then some (Char.ofNat 12)
  else if c = 'n' then some (Char.ofNat 10)
  else if c = 'r' then some (Char.ofNat 13)
  else if c = 't' then some (Char.ofNat 9)
  else none

/-- The string scanner of the Python decoder after an opening quote
(`strict=True`: raw control characters below 0x20 are rejected).  `\uXXXX`
escapes are decoded, with a high/low surrogate pair combined into one code
point.  (Python would keep a *lone* surrogate escape as a lone surrogate
in the `str`; such a character does not exist in Lean's `Char`, so the
model rejects that degenerate case instead — no input in this development
contains one.) -/
def parseStrAux : Nat → List Char → List Char → Option (List Char × List Char)
  | 0, _, _ => none
  | _ + 1, _, [] => none
  | fuel + 1, acc, c :: rest =>
    if c = dquote then some (acc.reverse, rest)
    else if c = '\\' then
      match rest with
      | 'u' :: a :: b :: c2 :: d :: rest2 =>
        match hex4 a b c2 d with
        | none => none
        | some n =>
          if 55296 ≤ n && n ≤ 56319 then
            match rest2 with
            | '\\' :: 'u' :: a2 :: b2 :: c3 :: d2 :: rest3 =>
              match hex4 a2 b2 c3 d2 with
              | some m =>
                if 56320 ≤ m && m ≤ 57343 then
                  parseStrAux fuel
                    (Char.ofNat (65536 + (n - 55296) * 1024 + (m - 56320)) :: acc)
                    rest3
                else none
              | none => none
            | _ => none
          else if 56320 ≤ n && n ≤ 57343 then none
          else parseStrAux fuel (Char.ofNat n :: acc) rest2
      | e :: rest2 =>
        match escChar e with
        | some ch => parseStrAux fuel (ch :: acc) rest2
        | none => none
      | [] => none
    else if c.toNat < 32 then none
    else parseStrAux fuel (c :: acc) rest

def parseJStr (cs : List Char) : Option (List Char × List Char) :=
  parseStrAux (cs.length + 1) [] cs

/-- The exponent part `([eE][-+]?\d+)?` of the number regex: returns the
exponent value and the rest, or `(0, unchanged)` when the group does not
match (the regex then simply ends the number before the `e`). -/
def parseExpPart (cs : List Char) : Int × List Char :=
  match cs with
  | c :: r =>
    if c = 'e' || c = 'E' then
      match r with
      | s :: r2 =>
        if s = '+' then
          (match takeDigits r2 with
           | ([], _) => (0, cs)
           | (ds, r3) => ((digitsToNat ds : Int), r3))
        else if s = '-' then
          (match takeDigits r2 with
           | ([], _) => (0, cs)
           | (ds, r3) => (-(digitsToNat ds : Int), r3))
        else
          (match takeDigits r with
           | ([], _) => (0, cs)
           | (ds, r3) => ((digitsToNat ds : Int), r3))
      | [] => (0, cs)
    else (0, cs)
  | [] => (0, cs)

/-- The fraction part `(\.\d+)?`: the fraction digits and the rest, or
`([], unchanged)` when the group does not match. -/
def parseFracPart (cs : List Char) : List Char × List Char :=
  match cs with
  | c :: r =>
    if c = '.' then
      match takeDigits r with
      | ([], _) => ([], cs)
      | (ds, r2) => (ds, r2)
    else ([], cs)
  | [] => ([], cs)

/-- Number scanning per the Python decoder's regex
`(-?(?:0|[1-9]\d*))(\.\d+)?([eE][-+]?\d+)?`: an integer-only match yields a
Python `int` (`jint`), any fraction or exponent yields a float
(`jfloat`). -/
def parseNum (cs : List Char) : Option (JValue × List Char) :=
  let sgn : Bool × List Char :=
    match cs with
    | c :: r => if c = '-' then (true, r) else (false, cs)
    | [] => (false, cs)
  match sgn.2 with
  | d :: rest =>
    let ip : Option (List Char × List Char) :=
      if d = '0' then some (['0'], rest)
      else if isDigitCh d then
        some ((takeDigits (d :: rest)).1, (takeDigits (d :: rest)).2)
      else none
    match ip with
    | none => none
    | some (ids, r1) =>
      let fp := parseFracPart r1
      let ep := parseExpPart fp.2
      if fp.1 = [] && ep.2 = fp.2 && fp.2 = r1 then
        some (JValue.jint ((if sgn.1 then -1 else 1) * (digitsToNat ids : Int)), r1)
      else
        some (JValue.jfloat
          ((if sgn.1 then -1 else 1) * (digitsToNat (ids ++ fp.1) : Int))
          (ep.1 - (fp.1.length : Int)), ep.2)
  | [] => none

/-- Python `dict` insertion: a repeated key updates the stored value in
place (keeping its first position); a new key is appended. -/
def upsertPair (k : List Char) (v : JValue) :
    List (List Char × JValue) → List (List Char × JValue)
  | [] => [(k, v)]
  | (k2, v2) :: tl =>
    if k2 = k then (k2, v) :: tl else (k2, v2) :: upsertPair k v tl

/-- `dict(pairs)`: fold the parsed member list into a dict. -/
def dictOfPairs (ps : List (List Char × JValue)) : List (List Char × JValue) :=
  ps.foldl (fun acc kv => upsertPair kv.1 kv.2 acc) []

mutual
/-- One JSON value, Python-decoder style (fuel-structural).  NaN/Infinity
constants accepted by Python are not modelled (no input here uses them). -/
def parseVal (fuel : Nat) (cs : List Char) : Option (JValue × List Char) :=
  match fuel with
  | 0 => none
  | fuel + 1 =>
    match skipWsJ cs with
    | 'n' :: 'u' :: 'l' :: 'l' :: r => some (JValue.jnull, r)
    | 't' :: 'r' :: 'u' :: 'e' :: r => some (JValue.jbool true, r)
    | 'f' :: 'a' :: 'l' :: 's' :: 'e' :: r => some (JValue.jbool false, r)
    | c :: r =>
      if c = dquote then
        match parseJStr r with
        | some (s, r2) => some (JValue.jstr s, r2)
        | none => none
      else if c = lbrace then
        match skipWsJ r with
        | c2 :: r2 =>
          if c2 = rbrace then some (JValue.jobj [], r2)
          else
            match parseMembers fuel (c2 :: r2) with
            | some (ps, r3) => some (JValue.jobj (dictOfPairs ps), r3)
            | none => none
        | [] => none
      else if c = '[' then
        match skipWsJ r with
        | c2 :: r2 =>
          if c2 = ']' then some (JValue.jarr [], r2)
          else
            match parseElems fuel (c2 :: r2) with
            | some (es, r3) => some (JValue.jarr es, r3)
            | none => none
        | [] => none
      else if c = '-' || isDigitCh c then parseNum (c :: r)
      else none
    | [] => none

/-- One-or-more comma-separated members (the empty object is handled in
`parseVal`). -/
def parseMembers (fuel : Nat) (cs : List Char) :
    Option (List (List Char × JValue) × List Char) :=
  match fuel with
  | 0 => none
  | fuel + 1 =>
    match skipWsJ cs with
    | c :: r =>
      if c = dquote then
        match parseJStr r with
        | none => none
        | some (key, r1) =>
          match skipWsJ r1 with
          | ':' :: r2 =>
            match parseVal fuel r2 with
            | none => none
            | some (v, r3) =>
              match skipWsJ r3 with
              | ',' :: r4 =>
                match parseMembers fuel r4 with
                | some (ps, r5) => some ((key, v) :: ps, r5)
                | none => none
              | c4 :: r4 =>
                if c4 = rbrace then some ([(key, v)], r4) else none
              | [] => none
          | _ => none
      else none
    | [] => none

/-- One-or-more comma-separated array elements. -/
def parseElems (fuel : Nat) (cs : List Char) :
    Option (List JValue × List Char) :=
  match fuel with
  | 0 => none
  | fuel + 1 =>
    match parseVal fuel cs with
    | none => none
    | some (v, r) =>
      match skipWsJ r with
      | ',' :: r2 =>
        match parseElems fuel r2 with
        | some (es, r3) => some (v :: es, r3)
        | none => none
      | ']' :: r2 => some ([v], r2)
      | _ => none
end

/-- `json.loads`: parse one value and require only whitespace after it. -/
def pyLoads (l : List Char) : Option JValue :=
  match parseVal (l.length + 1) l with
  | some (v, r) => if skipWsJ r = [] then some v else none
  | none => none

/-! ### `json.dumps(obj, indent=2)` -/

/-- Decimal digit characters of `n` (most significant first) prepended to
`acc`.  Fuel-structural (any `fuel > n` is enough) so that the kernel can
evaluate it. -/
def natDigitsGo : Nat → Nat → List Char → List Char
  | 0, _, acc => acc
  | fuel + 1, n, acc =>
    if n < 10 then Char.ofNat (48 + n % 10) :: acc
    else natDigitsGo fuel (n / 10) (Char.ofNat (48 + n % 10) :: acc)

def natDigits (n : Nat) : List Char := natDigitsGo (n + 1) n []

/-- Python `str(int)`: optional minus sign, then decimal digits. -/
def intChars (i : Int) : List Char :=
  (if i < 0 then ['-'] else []) ++ natDigits i.natAbs

/-- A decimal rendering of the exact value `m * 10^e`.  (Python renders a
float via `repr`, the shortest string that round-trips through IEEE
doubles; that is not modelled — no theorem below mentions a rendered
float.) -/
def floatChars (m e : Int) : List Char :=
  intChars m ++ 'e' :: intChars e

/-- Hex digit character (lower case). -/
def hexDigit (n : Nat) : Char :=
  if n < 10 then Char.ofNat (48 + n) else Char.ofNat (97 + (n - 10))

/-- `\uXXXX` for a code unit below 0x10000. -/
def uEsc (n : Nat) : List Char :=
  ['\\', 'u', hexDigit (n / 4096 % 16), hexDigit (n / 256 % 16),
   hexDigit (n / 16 % 16), hexDigit (n % 16)]

/-- JSON escaping of one character with `ensure_ascii=True`: the named
two-character escapes, `\uXXXX` for other control or non-ASCII characters,
and a surrogate pair for code points at 0x10000 and above. -/
def escapeChar (c : Char) : List Char :=
  if c = dquote then ['\\', dquote]
  else if c = '\\' then ['\\', '\\']
  else if c = Char.ofNat 10 then ['\\', 'n']
  else if c = Char.ofNat 13 then ['\\', 'r']
  else if c = Char.ofNat 9 then ['\\', 't']
  else if c = Char.ofNat 8 then ['\\', 'b']
  else if c = Char.ofNat 12 then ['\\', 'f']
  else if c.toNat < 32 || 126 < c.toNat then
    if c.toNat < 65536 then uEsc c.toNat
    else
      uEsc (55296 + (c.toNat - 65536) / 1024) ++ uEsc (56320 + (c.toNat - 65536) % 1024)
  else [c]

def renderStrChars (s : List Char) : List Char :=
  dquote :: ((s.map escapeChar).flatten ++ [dquote])

/-- `'\n'` plus `ind` spaces: the newline-and-indent that
`json.dumps(indent=2)` inserts before an item at indentation `ind`. -/
def nlIndent (ind : Nat) : List Char :=
  Char.ofNat 10 :: List.replicate ind ' '

mutual
/-- `json.dumps(v, indent=2)` at current indentation width `ind`. -/
def renderVal (ind : Nat) : JValue → List Char
  | JValue.jnull => ['n', 'u', 'l', 'l']
  | JValue.jbool true => ['t', 'r', 'u', 'e']
  | JValue.jbool false => ['f', 'a', 'l', 's', 'e']
  | JValue.jint n => intChars n
  | JValue.jfloat m e => floatChars m e
  | JValue.jstr s => renderStrChars s
  | JValue.jarr [] => ['[', ']']
  | JValue.jarr (e :: es) =>
    '[' :: (nlIndent (ind + 2) ++ renderElems (ind + 2) (e :: es)
      ++ nlIndent ind ++ [']'])
  | JValue.jobj [] => [lbrace, rbrace]
  | JValue.jobj (m :: ms) =>
    lbrace :: (nlIndent (ind + 2) ++ renderMembers (ind + 2) (m :: ms)
      ++ nlIndent ind ++ [rbrace])
def renderElems (ind : Nat) : List JValue → List Char
  | [] => []
  | [e] => renderVal ind e
  | e :: e2 :: es =>
    renderVal ind e ++ ',' :: (nlIndent ind ++ renderElems ind (e2 :: es))
def renderMembers (ind : Nat) : List (List Char × JValue) → List Char
  | [] => []
  | [(k, v)] => renderStrChars k ++ ':' :: ' ' :: renderVal ind v
  | (k, v) :: m2 :: ms =>
    renderStrChars k ++ ':' :: ' ' :: renderVal ind v
      ++ ',' :: (nlIndent ind ++ renderMembers ind (m2 :: ms))
end

/-- A recovered record serialized back into a JSON-tagged fenced code
block: ```` ```json ````, newline, `json.dumps(v, indent=2)`, newline,
```` ``` ````. -/
def render_fenced (v : JValue) : List Char :=
  fenceJsonTag ++ Char.ofNat 10 :: (renderVal 0 v ++ Char.ofNat 10 :: fenceBareTag)

/-! ### The textual repairs (lines 84-96 of `app.py`) -/

/-- `\s*` then the single character `target` (deterministic greedy). -/
def afterSpacesChar (target : Char) (l : List Char) : Option (List Char) :=
  match dropPySpaces l with
  | c :: rest => if c = target then some rest else none
  | [] => none

/-- `re.sub(r',\s*X', 'X', s)` for a closing character `X` (`}` or `]`):
lines 84-85. -/
def subCommaClose (close : Char) : Nat → List Char → List Char
  | 0, l => l
  | _ + 1, [] => []
  | fuel + 1, c :: rest =>
    if c = ',' then
      match afterSpacesChar close rest with
      | some rest2 => close :: subCommaClose close fuel rest2
      | none => c :: subCommaClose close fuel rest
    else c :: subCommaClose close fuel rest

/-- `[^']*` up to the next single quote: the content and what follows the
closing quote. -/
def scanToSQuote : List Char → Option (List Char × List Char)
  | [] => none
  | c :: rest =>
    if c = squote then some ([], rest)
    else
      match scanToSQuote rest with
      | some (content, r2) => some (c :: content, r2)
      | none => none

/-- `re.sub(r"'([^']*)':", r'"\1":', s)` — single-quoted keys to
double-quoted (line 88). -/
def subSQuoteKey : Nat → List Char → List Char
  | 0, l => l
  | _ + 1, [] => []
  | fuel + 1, c :: rest =>
    if c = squote then
      match scanToSQuote rest with
      | some (content, r2) =>
        match r2 with
        | ':' :: r3 =>
          dquote :: (content ++ dquote :: ':' :: subSQuoteKey fuel r3)
        | _ => c :: subSQuoteKey fuel rest
      | none => c :: subSQuoteKey fuel rest
    else c :: subSQuoteKey fuel rest

/-- `re.sub(r":\s*\'([^\']*)\'", r': "\1"', s)` — single-quoted string
values to double-quoted, normalizing the whitespace after the colon to one
space (line 89). -/
def subSQuoteVal : Nat → List Char → List Char
  | 0, l => l
  | _ + 1, [] => []
  | fuel + 1, c :: rest =>
    if c = ':' then
      match dropPySpaces rest with
      | q :: r2 =>
        if q = squote then
          match scanToSQuote r2 with
          | some (content, r3) =>
            ':' :: ' ' :: dquote :: (content ++ dquote :: subSQuoteVal fuel r3)
          | none => c :: subSQuoteVal fuel rest
        else c :: subSQuoteVal fuel rest
      | [] => c :: subSQuoteVal fuel rest
    else c :: subSQuoteVal fuel rest

/-- Maximal run of `[0-9,]`. -/
def takeNumComma : List Char → List Char × List Char
  | c :: cs =>
    if isDigitCh c || c = ',' then
      let p := takeNumComma cs
      (c :: p.1, p.2)
    else ([], c :: cs)
  | [] => ([], [])

def valueTag : List Char := dquote :: (("value").data ++ [dquote, ':'])
def fromTag : List Char := dquote :: (("from").data ++ [dquote, ':'])
def toTag : List Char := dquote :: (("to").data ++ [dquote, ':'])

/-- `re.sub(r'"value":\s*([0-9,]+),\s*(["}])', r'"value": \1\2', s)`
(line 92).  The greedy `[0-9,]+` forces the matched comma to be the last
character of the maximal digit-and-comma run; the whitespace around it is
normalized to the single space of the replacement and the whitespace
before the delimiter is deleted. -/
def subValueComma : Nat → List Char → List Char
  | 0, l => l
  | _ + 1, [] => []
  | fuel + 1, c :: rest =>
    if valueTag.isPrefixOf (c :: rest) then
      let body := dropPySpaces ((c :: rest).drop valueTag.length)
      let run := takeNumComma body
      if 2 ≤ run.1.length && run.1.getLast? = some ',' then
        match dropPySpaces run.2 with
        | d :: r2 =>
          if d = dquote || d = rbrace then
            valueTag ++ ' ' :: (run.1.dropLast ++ d :: subValueComma fuel r2)
          else c :: subValueComma fuel rest
        | [] => c :: subValueComma fuel rest
      else c :: subValueComma fuel rest
    else c :: subValueComma fuel rest

/-- `\d{4}-\d{2}-\d{2}` as a prefix: the ten date characters and the
rest. -/
def matchDate : List Char → Option (List Char × List Char)
  | a :: b :: c :: d :: s1 :: e :: f :: s2 :: g :: h :: rest =>
    if isDigitCh a && isDigitCh b && isDigitCh c && isDigitCh d &&
       s1 = '-' && isDigitCh e && isDigitCh f && s2 = '-' &&
       isDigitCh g && isDigitCh h then
      some ([a, b, c, d, s1, e, f, s2, g, h], rest)
    else none
  | _ => none

/-- `re.sub(r'"from":\s*(\d{4}-\d{2}-\d{2})', r'"from": "\1"', s)` and the
`"to"` analogue (lines 95-96): quote an unquoted ISO date, normalizing the
whitespace after the colon to one space. -/
def subDateQuote (tag : List Char) : Nat → List Char → List Char
  | 0, l => l
  | _ + 1, [] => []
  | fuel + 1, c :: rest =>
    if tag.isPrefixOf (c :: rest) then
      match matchDate (dropPySpaces ((c :: rest).drop tag.length)) with
      | some (date, r2) =>
        tag ++ ' ' :: dquote :: (date ++ dquote :: subDateQuote tag fuel r2)
      | none => c :: subDateQuote tag fuel rest
    else c :: subDateQuote tag fuel rest

/-- The fixed repair sequence of lines 84-96, in source order. -/
def repair_json (l : List Char) : List Char :=
  let s1 := subCommaClose rbrace (l.length + 1) l
  let s2 := subCommaClose ']' (s1.length + 1) s1
  let s3 := subSQuoteKey (s2.length + 1) s2
  let s4 := subSQuoteVal (s3.length + 1) s3
  let s5 := subValueComma (s4.length + 1) s4
  let s6 := subDateQuote fromTag (s5.length + 1) s5
  subDateQuote toTag (s6.length + 1) s6

/-! ### Python scalar coercions used by the pipeline -/

mutual
/-- Python `repr` of a parsed JSON value (the form `str(...)` shows inside
containers): single-quoted strings, `True`/`False`/`None`, `[...]`/`{...}`
with `, ` separators.  Only its comma content matters to the pipeline
(`',' in value_str`), and the string-escape subtleties of `repr` are not
reproduced. -/
def pyRepr : JValue → List Char
  | JValue.jnull => ("None").data
  | JValue.jbool true => ("True").data
  | JValue.jbool false => ("False").data
  | JValue.jint n => intChars n
  | JValue.jfloat m e => floatChars m e
  | JValue.jstr s => squote :: (s ++ [squote])
  | JValue.jarr es => '[' :: (pyReprElems es ++ [']'])
  | JValue.jobj ms => lbrace :: (pyReprMembers ms ++ [rbrace])
def pyReprElems : List JValue → List Char
  | [] => []
  | [e] => pyRepr e
  | e :: e2 :: es => pyRepr e ++ ',' :: ' ' :: pyReprElems (e2 :: es)
def pyReprMembers : List (List Char × JValue) → List Char
  | [] => []
  | [(k, v)] => squote :: (k ++ squote :: ':' :: ' ' :: pyRepr v)
  | (k, v) :: m2 :: ms =>
    squote :: (k ++ squote :: ':' :: ' ' :: pyRepr v)
      ++ ',' :: ' ' :: pyReprMembers (m2 :: ms)
end

/-- Python `str(v)`: the string itself for a `str`, `repr` otherwise. -/
def pyStrOf : JValue → List Char
  | JValue.jstr s => s
  | v => pyRepr v

/-- Python `int(s)`: optional surrounding whitespace, an optional sign,
one or more decimal digits.  (Underscore digit grouping and non-ASCII
digits are not modelled.) -/
def pyIntParse (l : List Char) : Option Int :=
  let t := pyStrip l
  let sgn : Bool × List Char :=
    match t with
    | c :: r => if c = '-' then (true, r) else if c = '+' then (false, r) else (false, t)
    | [] => (false, t)
  match sgn.2 with
  | [] => none
  | ds =>
    if ds.all (fun c => isDigitCh c) then
      some ((if sgn.1 then -1 else 1) * (digitsToNat ds : Int))
    else none

/-- Python `float(s)` for ordinary decimal literals: optional surrounding
whitespace and sign, then `digits [. digits] | . digits`, then an optional
exponent.  Returns the exact decimal as `(mantissa, exponent)`.
(`inf`/`nan` spellings are not modelled.) -/
def pyFloatParse (l : List Char) : Option (Int × Int) :=
  let t := pyStrip l
  let sgn : Bool × List Char :=
    match t with
    | c :: r => if c = '-' then (true, r) else if c = '+' then (false, r) else (false, t)
    | [] => (false, t)
  let ipart := takeDigits sgn.2
  let fpart : Option (List Char × List Char) :=
    match ipart.2 with
    | '.' :: r =>
      let fd := takeDigits r
      if ipart.1 = [] && fd.1 = [] then none else some (fd.1, fd.2)
    | rest => if ipart.1 = [] then none else some ([], rest)
  match fpart with
  | none => none
  | some (fds, rest1) =>
    let epart : Option (Int × List Char) :=
      match rest1 with
      | c :: r =>
        if c = 'e' || c = 'E' then
          match r with
          | s :: r2 =>
            if s = '+' then
              (match takeDigits r2 with
               | ([], _) => none
               | (ds, r3) => some ((digitsToNat ds : Int), r3))
            else if s = '-' then
              (match takeDigits r2 with
               | ([], _) => none
               | (ds, r3) => some (-(digitsToNat ds : Int), r3))
            else
              (match takeDigits r with
               | ([], _) => none
               | (ds, r3) => some ((digitsToNat ds : Int), r3))
          | [] => none
        else some (0, rest1)
      | [] => some (0, rest1)
    match epart with
    | none => none
    | some (e, rest2) =>
      if rest2 = [] then
        some ((if sgn.1 then -1 else 1) * (digitsToNat (ipart.1 ++ fds) : Int),
          e - (fds.length : Int))
      else none

/-! ### Post-processing after a successful repaired parse (lines 101-107) -/

def valueKey : List Char := ("value").data
def fromKey : List Char := ("from").data
def toKey : List Char := ("to").data

def lookupKey (k : List Char) : List (List Char × JValue) → Option JValue
  | [] => none
  | (k2, v) :: tl => if k2 = k then some v else lookupKey k tl

/-- Python's in-place number fix-up after the repaired parse: for each
field whose value is a dict with a `"value"` entry, if `str(value)`
contains a comma, replace it by `int(str(value).replace(',', ''))`.  An
`int()` failure raises out of the whole repair block; the Boolean records
success, and the returned list reflects the mutations applied before the
failure point (Python mutates the parsed dict in place, so a partial
result survives the exception). -/
def post_process_values : List (List Char × JValue) → Bool × List (List Char × JValue)
  | [] => (true, [])
  | (k, v) :: tl =>
    match v with
    | JValue.jobj inner =>
      match lookupKey valueKey inner with
      | some vv =>
        let s := pyStrOf vv
        if s.contains ',' then
          match pyIntParse (s.filter (fun c => ¬ c = ',')) with
          | some n =>
            let r := post_process_values tl
            (r.1, (k, JValue.jobj (upsertPair valueKey (JValue.jint n) inner)) :: r.2)
          | none => (false, (k, v) :: tl)
        else
          let r := post_process_values tl
          (r.1, (k, v) :: r.2)
      | none =>
        let r := post_process_values tl
        (r.1, (k, v) :: r.2)
    | _ =>
      let r := post_process_values tl
      (r.1, (k, v) :: r.2)

/-! ### Field-by-field manual recovery (lines 110-153) -/

/-- `[^"]+` up to the next double quote (must be nonempty): the content and
what follows the closing quote. -/
def scanToDQuote : List Char → Option (List Char × List Char)
  | [] => none
  | c :: rest =>
    if c = dquote then some ([], rest)
    else
      match scanToDQuote rest with
      | some (content, r2) => some (c :: content, r2)
      | none => none

/-- `[^}]+` up to the next closing brace (must be nonempty). -/
def scanToRBrace : List Char → Option (List Char × List Char)
  | [] => none
  | c :: rest =>
    if c = rbrace then some ([], rest)
    else
      match scanToRBrace rest with
      | some (content, r2) => some (c :: content, r2)
      | none => none

/-- One attempt of `"([^"]+)":\s*{([^}]+)}` at the current position:
the field name, the brace content, and the rest after the match. -/
def fieldMatchAt (l : List Char) : Option ((List Char × List Char) × List Char) :=
  match l with
  | c :: rest =>
    if c = dquote then
      match scanToDQuote rest with
      | some (name, r2) =>
        if name = [] then none
        else
          match r2 with
          | ':' :: r3 =>
            (match dropPySpaces r3 with
             | b :: r4 =>
               if b = lbrace then
                 match scanToRBrace r4 with
                 | some (content, r5) =>
                   if content = [] then none else some ((name, content), r5)
                 | none => none
               else none
             | [] => none)
          | _ => none
      | none => none
    else none
  | [] => none

/-- `re.finditer(field_pattern, json_str)`: all non-overlapping matches,
left to right. -/
def manual_fields : Nat → List Char → List (List Char × List Char)
  | 0, _ => []
  | _ + 1, [] => []
  | fuel + 1, c :: rest =>
    match fieldMatchAt (c :: rest) with
    | some ((n, content), r5) => (n, content) :: manual_fields fuel r5
    | none => manual_fields fuel rest

/-- Greedy token of characters outside `excl` in runs separated by single
commas — `([^X]+(?:,[^X]+)*)` with `X` the excluded set (which always
contains the comma). -/
def takeTokenRuns (excl : Char → Bool) : Nat → List Char → List Char × List Char
  | 0, l => ([], l)
  | fuel + 1, l =>
    let run1 := l.takeWhile (fun c => ¬ excl c)
    let rest1 := l.dropWhile (fun c => ¬ excl c)
    if run1 = [] then ([], l)
    else
      match rest1 with
      | ',' :: r2 =>
        let p := takeTokenRuns excl fuel r2
        if p.1 = [] then (run1, rest1) else (run1 ++ ',' :: p.1, p.2)
      | _ => (run1, rest1)

/-- After the literal `"key":`, the greedy-but-backtracking `\s*` followed
by the token group `([^X]+(?:,[^X]+)*)`: consume the most whitespace that
still lets the token start.  A token may legally begin with a whitespace
character that is not in the excluded set (for these patterns, any
whitespace except the newline), which re exploits by giving back
whitespace when the first non-blank character is excluded. -/
def wsThenToken (excl : Char → Bool) (runs : Bool) (body : List Char) :
    Option (List Char) :=
  let grab : List Char → List Char := fun l =>
    if runs then (takeTokenRuns excl (body.length + 1) l).1
    else l.takeWhile (fun c => ¬ excl c)
  let w := body.takeWhile (fun c => isPySpace c)
  let r := body.dropWhile (fun c => isPySpace c)
  let direct : Bool :=
    match r with
    | c :: _ => ¬ excl c
    | [] => false
  if direct then some (grab r)
  else
    let wr := w.reverse.dropWhile (fun c => excl c)
    if wr = [] then none
    else some (grab (w.drop (wr.length - 1) ++ r))

/-- `re.search` for `"key":\s*(token)` inside a field's brace content:
first position where the tag matches and the token group is nonempty. -/
def searchKeyToken (tag : List Char) (excl : Char → Bool) (runs : Bool) :
    Nat → List Char → Option (List Char)
  | 0, _ => none
  | _ + 1, [] => none
  | fuel + 1, c :: rest =>
    if tag.isPrefixOf (c :: rest) then
      match wsThenToken excl runs ((c :: rest).drop tag.length) with
      | some tok => some tok
      | none => searchKeyToken tag excl runs fuel rest
    else searchKeyToken tag excl runs fuel rest

/-- Excluded characters of the `value` token: comma, double quote,
newline. -/
def exclValue (c : Char) : Bool := c = ',' || c = dquote || c = Char.ofNat 10

/-- Excluded characters of the `from`/`to` tokens: comma, newline. -/
def exclDate (c : Char) : Bool := c = ',' || c = Char.ofNat 10

/-- Python `str.strip('"\x27')`: remove single and double quotes from both
ends. -/
def stripQuotesEnds (l : List Char) : List Char :=
  ((l.dropWhile (fun c => c = dquote || c = squote)).reverse.dropWhile
    (fun c => c = dquote || c = squote)).reverse

/-- Lines 130-144: clean the captured `value` token — strip whitespace,
drop one trailing comma, remove the remaining commas, then coerce to `int`
if possible, else `float`, else a dequoted string. -/
def processValueToken (tok : List Char) : JValue :=
  let s0 := pyStrip tok
  let s1 := if s0.getLast? = some ',' then s0.dropLast else s0
  let s2 := s1.filter (fun c => ¬ c = ',')
  match pyIntParse s2 with
  | some n => JValue.jint n
  | none =>
    match pyFloatParse s2 with
    | some me => JValue.jfloat me.1 me.2
    | none => JValue.jstr (stripQuotesEnds s2)

/-- Lines 147-150: clean a captured `from`/`to` token —
`.strip().strip('"\x27')`. -/
def processDateToken (tok : List Char) : List Char :=
  stripQuotesEnds (pyStrip tok)

/-- Lines 116-150: the entry built for one matched field span, if its
content has a `value` sub-match. -/
def manual_field_entry (content : List Char) : Option JValue :=
  match searchKeyToken valueTag exclValue true (content.length + 1) content with
  | none => none
  | some vtok =>
    let e1 := [(valueKey, processValueToken vtok)]
    let e2 :=
      match searchKeyToken fromTag exclDate false (content.length + 1) content with
      | some ftok => e1 ++ [(fromKey, JValue.jstr (processDateToken ftok))]
      | none => e1
    let e3 :=
      match searchKeyToken toTag exclDate false (content.length + 1) content with
      | some ttok => e2 ++ [(toKey, JValue.jstr (processDateToken ttok))]
      | none => e2
    some (JValue.jobj e3)

/-- Lines 110-153: the last-resort manual recovery over the (repaired)
candidate string.  Recovers a record iff at least one field span with a
`value` sub-match is found. -/
def extract_manual (l : List Char) : Option JValue :=
  let fs := manual_fields (l.length + 1) l
  let m := fs.foldl (fun acc nv =>
    match manual_field_entry nv.2 with
    | some e => upsertPair nv.1 e acc
    | none => acc) []
  if m.isEmpty then none else some (JValue.jobj m)

/-! ### The whole extraction pipeline (lines 45-163) -/

/-- `extract_json_from_text(text_content)` (the `json_data` component; the
file-saving side effect is outside the model): locate a candidate with the
first matching locator, `strip()` it, then strict-parse; on failure apply
the fixed repair sequence and reparse (post-processing the numbers, where
an `int()` failure falls through to manual recovery but keeps the
partially fixed record if that recovery comes back empty); on a reparse
failure, fall back to field-by-field manual recovery of the repaired
string.  `none` is the `NoParsableStructure` failure. -/
def extract_json_from_text (l : List Char) : Option JValue :=
  match locate_candidate l with
  | none => none
  | some cap =>
    let js := pyStrip cap
    match pyLoads js with
    | some v => some v
    | none =>
      let repaired := repair_json js
      match pyLoads repaired with
      | some (JValue.jobj ms) =>
        let pp := post_process_values ms
        if pp.1 then some (JValue.jobj pp.2)
        else
          match extract_manual repaired with
          | some m => some m
          | none => some (JValue.jobj pp.2)
      | some v =>
        (match extract_manual repaired with
         | some m => some m
         | none => some v)
      | none => extract_manual repaired

/-! ### Claims about the extraction pipeline -/

/-- The fixed schema of `FinancialRecord` field names. -/
def schema_fields : List (List Char) :=
  [("Revenue").data, ("Cost").data, ("Gross Profit").data,
   ("Operating Expenses").data, ("Operating Income").data,
   ("Net Income").data]

/-- A reply whose fenced JSON block discloses only the `Revenue` field. -/
def c3_input : List Char :=
  ("Analysis:\n\x60\x60\x60json\n\x7b\"Revenue\": \x7b\"value\": 100000, \"from\": \"2022-01-01\", \"to\": \"2022-12-31\"\x7d\x7d\n\x60\x60\x60\nDone.").data

/-- The strategy-1 capture inside `c3_input`. -/
def c3_capture : List Char :=
  ("\x7b\"Revenue\": \x7b\"value\": 100000, \"from\": \"2022-01-01\", \"to\": \"2022-12-31\"\x7d\x7d").data

def c3_record_members : List (List Char × JValue) :=
  [(("Revenue").data, JValue.jobj
    [(valueKey, JValue.jint 100000),
     (fromKey, JValue.jstr (("2022-01-01").data)),
     (toKey, JValue.jstr (("2022-12-31").data))])]

/-- Claim C3 counterexample: on a reply whose JSON discloses only
`Revenue`, extraction completes and returns a record whose key set is
exactly `{Revenue}` — the five other schema fields are absent and no
`"N/A"` entries are synthesized, contradicting the claimed fixed-schema
invariant. -/
theorem claim_C3_counterexample :
    extract_json_from_text c3_input = some (JValue.jobj c3_record_members) ∧
    c3_record_members.map Prod.fst = [("Revenue").data] ∧
    ("Cost").data ∉ c3_record_members.map Prod.fst := by
  refine ⟨rfl, rfl, ?_⟩
  decide

/-- Claim C3 amended: the pipeline performs no schema completion at all —
whenever the selected candidate strict-parses, `extract_json_from_text`
returns the parsed object verbatim, so the record's keys are exactly the
keys present in the reply text (extra keys retained, missing schema fields
omitted rather than synthesized as `"N/A"`). -/
theorem claim_C3_amended_no_schema_completion (t cap : List Char) (o : JValue)
    (h1 : locate_candidate t = some cap)
    (h2 : pyLoads (pyStrip cap) = some o) :
    extract_json_from_text t = some o := by
  unfold extract_json_from_text
  rw [h1]
  simp only [h2]

theorem claim_C3_amended_witness :
    extract_json_from_text c3_input = some (JValue.jobj c3_record_members) :=
  claim_C3_amended_no_schema_completion c3_input c3_capture
    (JValue.jobj c3_record_members) rfl rfl

/-- A reply with single-quoted keys/strings and thousand separators inside
the `value` number. -/
def c4_input : List Char :=
  ("Result:\n\x60\x60\x60json\n\x7b\x27Revenue\x27: \x7b\x27value\x27: 1,000,000, \x27from\x27: \x272022-01-01\x27, \x27to\x27: \x272022-12-31\x27\x7d\x7d\n\x60\x60\x60\nDone.").data

/-- Claim C4: on a JSON-tagged fenced block with single-quoted keys and an
embedded-thousand-separator `value`, the repair cascade (trailing-comma
strip, quote conversion, separator removal, date quoting, reparse, then
field-by-field recovery because the mangled reparse still fails) recovers
`Revenue.value = 1000000` as a plain number. -/
theorem claim_C4_repair_recovers_value :
    extract_json_from_text c4_input =
      some (JValue.jobj [(("Revenue").data, JValue.jobj
        [(valueKey, JValue.jint 1000000),
         (fromKey, JValue.jstr (("2022-01-01").data)),
         (toKey, JValue.jstr (("2022-12-31").data))])]) := rfl

/-- A reply where the single well-formed field span sits in prose with no
other braces, so the brace-scan locator grabs the *inner* object. -/
def c6_cex_input : List Char :=
  ("The company reported \"Revenue\": \x7b\"value\": 123, \"from\": \"2022-01-01\", \"to\": \"2022-12-31\"\x7d overall.").data

def c6_cex_members : List (List Char × JValue) :=
  [(valueKey, JValue.jint 123),
   (fromKey, JValue.jstr (("2022-01-01").data)),
   (toKey, JValue.jstr (("2022-12-31").data))]

/-- Claim C6 counterexample: with exactly one well-formed
`"Revenue": {...}` span embedded in otherwise unparsable prose, extraction
does *not* go through field-by-field recovery and does *not* return a
record containing that field: the brace-scan locator captures the inner
`{...}` object, which strict-parses, so the result's keys are
`value`/`from`/`to` and `Revenue` is absent. -/
theorem claim_C6_counterexample :
    extract_json_from_text c6_cex_input = some (JValue.jobj c6_cex_members) ∧
    lookupKey (("Revenue").data) c6_cex_members = none := ⟨rfl, rfl⟩

def c6_pre : List Char := ("\x7b noise noise \"").data

def c6_post : List Char :=
  ("\": \x7b\"value\": 123, \"from\": \"2022-01-01\", \"to\": \"2022-12-31\"\x7d trailing").data

def c6_entry : JValue :=
  JValue.jobj
    [(valueKey, JValue.jint 123),
     (fromKey, JValue.jstr (("2022-01-01").data)),
     (toKey, JValue.jstr (("2022-12-31").data))]

/-- Claim C6 amended: the field-by-field recovery operates on the single
captured candidate, not the whole text.  For every schema field `f`, when
the captured candidate fails strict and repaired parsing and contains
exactly one well-formed `"f": {...}` span, extraction succeeds through
field-by-field recovery with a record containing exactly that field. -/
theorem claim_C6_amended_scoped_recovery (f : List Char)
    (hf : f ∈ schema_fields) :
    extract_json_from_text (c6_pre ++ (f ++ c6_post)) =
      some (JValue.jobj [(f, c6_entry)]) := by
  fin_cases hf <;> rfl

theorem claim_C6_amended_witness :
    extract_json_from_text (c6_pre ++ ((("Revenue").data) ++ c6_post)) =
      some (JValue.jobj [((("Revenue").data), c6_entry)]) :=
  claim_C6_amended_scoped_recovery (("Revenue").data) (by decide)

/-! ### Locator semantics (for claim C5) -/

theorem takeToFirstClose_mem (r : List Char) :
    ∀ acc cap, takeToFirstClose acc r = some cap → rbrace ∈ r := by
  induction r with
  | nil => intro acc cap h; simp [takeToFirstClose] at h
  | cons c cs ih =>
    intro acc cap h
    unfold takeToFirstClose at h
    by_cases hc : c = rbrace
    · simp [hc]
    · rw [if_neg hc] at h
      exact List.mem_cons_of_mem c (ih _ _ h)

theorem braceLazyEnd_mem (r : List Char) :
    ∀ acc cap, braceLazyEnd acc r = some cap → rbrace ∈ r := by
  induction r with
  | nil => intro acc cap h; simp [braceLazyEnd] at h
  | cons c cs ih =>
    intro acc cap h
    unfold braceLazyEnd at h
    by_cases hc : (c = rbrace && fenceAfter cs) = true
    · rcases Bool.and_eq_true_iff.mp hc with ⟨hc1, _⟩
      simp only [decide_eq_true_eq] at hc1
      simp [hc1]
    · rw [if_neg hc] at h
      exact List.mem_cons_of_mem c (ih _ _ h)

theorem dropPySpaces_suffix (l : List Char) : dropPySpaces l <:+ l := by
  induction l with
  | nil => exact List.suffix_refl _
  | cons c cs ih =>
    unfold dropPySpaces
    by_cases hc : isPySpace c = true
    · rw [if_pos hc]
      exact ih.trans (List.suffix_cons c cs)
    · rw [if_neg hc]

theorem fencedCaptureAt_span (tag l : List Char) (cap : List Char)
    (h : fencedCaptureAt tag l = some cap) :
    ∃ r, (lbrace :: r) <:+ l ∧ rbrace ∈ r := by
  unfold fencedCaptureAt at h
  by_cases hp : tag.isPrefixOf l = true
  · rw [if_pos hp] at h
    cases hd : dropPySpaces (l.drop tag.length) with
    | nil => rw [hd] at h; exact absurd h (by simp)
    | cons c rest =>
      rw [hd] at h
      replace h : (if c = lbrace then braceLazyEnd [lbrace] rest else none)
          = some cap := h
      by_cases hc : c = lbrace
      · rw [if_pos hc] at h
        refine ⟨rest, ?_, braceLazyEnd_mem rest _ _ h⟩
        have h1 : (c :: rest) <:+ l.drop tag.length := hd ▸ dropPySpaces_suffix _
        rw [hc] at h1
        exact h1.trans (List.drop_suffix _ _)
      · rw [if_neg hc] at h; exact absurd h (by simp)
  · rw [if_neg hp] at h; exact absurd h (by simp)

theorem braceSpanAt_span (l : List Char) (cap : List Char)
    (h : braceSpanAt l = some cap) :
    ∃ r, l = lbrace :: r ∧ rbrace ∈ r := by
  unfold braceSpanAt at h
  cases l with
  | nil => exact absurd h (by simp)
  | cons c rest =>
    replace h : (if c = lbrace then takeToFirstClose [lbrace] rest else none)
        = some cap := h
    by_cases hc : c = lbrace
    · rw [if_pos hc] at h
      exact ⟨rest, by rw [hc], takeToFirstClose_mem rest _ _ h⟩
    · rw [if_neg hc] at h; exact absurd h (by simp)

theorem findFirstCapture_suffix (f : List Char → Option (List Char)) :
    ∀ t cap, findFirstCapture f t = some cap → ∃ s, s <:+ t ∧ f s = some cap := by
  intro t
  induction t with
  | nil => intro cap h; simp [findFirstCapture] at h
  | cons c rest ih =>
    intro cap h
    unfold findFirstCapture at h
    cases hf : f (c :: rest) with
    | some x => rw [hf] at h; exact ⟨c :: rest, List.suffix_refl _, hf.trans h⟩
    | none =>
      rw [hf] at h
      obtain ⟨s, hs, hfs⟩ := ih cap h
      exact ⟨s, hs.trans (List.suffix_cons c rest), hfs⟩

/-- When the text has no `{` followed (anywhere later) by a `}`, none of
the three locators finds a candidate. -/
theorem locate_candidate_none_of_no_span (t : List Char)
    (h : ¬ ∃ r, (lbrace :: r) <:+ t ∧ rbrace ∈ r) :
    locate_candidate t = none := by
  have h1 : findFencedJson t = none := by
    cases hf : findFencedJson t with
    | none => rfl
    | some cap =>
      obtain ⟨s, hs, hfs⟩ := findFirstCapture_suffix _ t cap hf
      obtain ⟨r, hr, hm⟩ := fencedCaptureAt_span _ s cap hfs
      exact absurd ⟨r, hr.trans hs, hm⟩ h
  have h2 : findFencedBare t = none := by
    cases hf : findFencedBare t with
    | none => rfl
    | some cap =>
      obtain ⟨s, hs, hfs⟩ := findFirstCapture_suffix _ t cap hf
      obtain ⟨r, hr, hm⟩ := fencedCaptureAt_span _ s cap hfs
      exact absurd ⟨r, hr.trans hs, hm⟩ h
  have h3 : findBraceSpan t = none := by
    cases hf : findBraceSpan t with
    | none => rfl
    | some cap =>
      obtain ⟨s, hs, hfs⟩ := findFirstCapture_suffix _ t cap hf
      obtain ⟨r, hr, hm⟩ := braceSpanAt_span s cap hfs
      refine absurd ⟨r, ?_, hm⟩ h
      rw [← hr]
      exact hs
  unfold locate_candidate
  rw [h1, h2, h3]

/-- A text with no `}` at all contains no brace-delimited span. -/
theorem no_span_of_no_rbrace (t : List Char) (h : rbrace ∉ t) :
    ¬ ∃ r, (lbrace :: r) <:+ t ∧ rbrace ∈ r := by
  rintro ⟨r, hr, hm⟩
  exact h (hr.subset (List.mem_cons_of_mem _ hm))

/-- A reply whose `json`-tagged fence holds garbage while a later bare
fence holds valid JSON. -/
def c5_cex_input : List Char :=
  ("\x60\x60\x60json\n\x7bbad bad\x7d\n\x60\x60\x60\n\x60\x60\x60\n\x7b\"a\": 1\x7d\n\x60\x60\x60").data

/-- The candidate the bare-fence locator would capture on `c5_cex_input`. -/
def c5_bare_capture : List Char := ("\x7b\"a\": 1\x7d").data

/-- Claim C5 counterexample: extraction fails on `c5_cex_input` even
though one of the cascade's strategies (the bare-fence locator) finds a
candidate that parses — the `json`-tagged locator matched first and its
garbage capture consumed the whole pipeline, so failure is *not*
equivalent to every strategy failing to produce parsable structure. -/
theorem claim_C5_counterexample :
    extract_json_from_text c5_cex_input = none ∧
    findFencedBare c5_cex_input = some c5_bare_capture ∧
    pyLoads (pyStrip c5_bare_capture) =
      some (JValue.jobj [(("a").data, JValue.jint 1)]) :=
  ⟨rfl, rfl, rfl⟩

/-- A reply disclosing only one schema field: a partial record, which is a
success. -/
def c5_partial_input : List Char :=
  ("\x60\x60\x60json\n\x7b\"Cost\": \x7b\"value\": 5\x7d\x7d\n\x60\x60\x60").data

def c5_partial_members : List (List Char × JValue) :=
  [(("Cost").data, JValue.jobj [(valueKey, JValue.jint 5)])]

/-- With no candidate located, extraction fails. -/
theorem extract_none_of_locate_none (t : List Char)
    (h : locate_candidate t = none) : extract_json_from_text t = none := by
  unfold extract_json_from_text
  rw [h]

/-- With a located candidate that fails strict parse, repaired reparse and
manual recovery, extraction fails. -/
theorem extract_none_of_all_fail (t cap : List Char)
    (h1 : locate_candidate t = some cap)
    (hs : pyLoads (pyStrip cap) = none)
    (hr : pyLoads (repair_json (pyStrip cap)) = none)
    (hm : extract_manual (repair_json (pyStrip cap)) = none) :
    extract_json_from_text t = none := by
  unfold extract_json_from_text
  rw [h1]
  simp only [hs, hr, hm]

/-- A successful repaired reparse always produces a record (through
post-processing, manual recovery, or the partially fixed record). -/
theorem extract_some_of_repair_parse (t cap : List Char) (v : JValue)
    (h1 : locate_candidate t = some cap)
    (hs : pyLoads (pyStrip cap) = none)
    (hr : pyLoads (repair_json (pyStrip cap)) = some v) :
    ∃ w, extract_json_from_text t = some w := by
  unfold extract_json_from_text
  rw [h1]
  simp only [hs, hr]
  cases v with
  | jobj ms =>
    by_cases hp : (post_process_values ms).1 = true
    · exact ⟨JValue.jobj (post_process_values ms).2, by simp [hp]⟩
    · simp only [Bool.not_eq_true] at hp
      cases hm : extract_manual (repair_json (pyStrip cap)) with
      | some m => exact ⟨m, by simp [hp, hm]⟩
      | none => exact ⟨JValue.jobj (post_process_values ms).2, by simp [hp, hm]⟩
  | jnull => cases hm : extract_manual (repair_json (pyStrip cap)) with
    | some m => exact ⟨m, by simp [hm]⟩
    | none => exact ⟨JValue.jnull, by simp [hm]⟩
  | jbool b => cases hm : extract_manual (repair_json (pyStrip cap)) with
    | some m => exact ⟨m, by simp [hm]⟩
    | none => exact ⟨JValue.jbool b, by simp [hm]⟩
  | jint n => cases hm : extract_manual (repair_json (pyStrip cap)) with
    | some m => exact ⟨m, by simp [hm]⟩
    | none => exact ⟨JValue.jint n, by simp [hm]⟩
  | jfloat m e => cases hm : extract_manual (repair_json (pyStrip cap)) with
    | some m2 => exact ⟨m2, by simp [hm]⟩
    | none => exact ⟨JValue.jfloat m e, by simp [hm]⟩
  | jstr str => cases hm : extract_manual (repair_json (pyStrip cap)) with
    | some m => exact ⟨m, by simp [hm]⟩
    | none => exact ⟨JValue.jstr str, by simp [hm]⟩
  | jarr es => cases hm : extract_manual (repair_json (pyStrip cap)) with
    | some m => exact ⟨m, by simp [hm]⟩
    | none => exact ⟨JValue.jarr es, by simp [hm]⟩

/-- The strict-parse passthrough (also the engine of claim C3's amended
theorem). -/
theorem extract_strict_passthrough (t cap : List Char) (o : JValue)
    (h1 : locate_candidate t = some cap)
    (h2 : pyLoads (pyStrip cap) = some o) :
    extract_json_from_text t = some o := by
  unfold extract_json_from_text
  rw [h1]
  simp only [h2]

/-- With both parses failed, extraction is exactly manual recovery. -/
theorem extract_eq_manual_of_parses_fail (t cap : List Char)
    (h1 : locate_candidate t = some cap)
    (hs : pyLoads (pyStrip cap) = none)
    (hr : pyLoads (repair_json (pyStrip cap)) = none) :
    extract_json_from_text t = extract_manual (repair_json (pyStrip cap)) := by
  unfold extract_json_from_text
  rw [h1]
  simp only [hs, hr]

/-- Claim C5 amended: `extract_json_from_text` fails exactly when the
*single selected candidate* (chosen by the first locator that matches)
fails strict parsing, repaired reparsing, and field-by-field recovery;
text with no `{` followed by a later `}` has no candidate and always
fails; and a partial record is a success, not a failure. -/
theorem claim_C5_amended_failure_characterization :
    (∀ t, extract_json_from_text t = none ↔
      (locate_candidate t = none ∨
        ∃ cap, locate_candidate t = some cap ∧
          pyLoads (pyStrip cap) = none ∧
          pyLoads (repair_json (pyStrip cap)) = none ∧
          extract_manual (repair_json (pyStrip cap)) = none)) ∧
    (∀ t, (¬ ∃ r, (lbrace :: r) <:+ t ∧ rbrace ∈ r) →
      extract_json_from_text t = none) ∧
    extract_json_from_text c5_partial_input =
      some (JValue.jobj c5_partial_members) := by
  refine ⟨?_, ?_, rfl⟩
  · intro t
    constructor
    · intro h
      cases hle : locate_candidate t with
      | none => exact Or.inl rfl
      | some cap =>
        refine Or.inr ⟨cap, rfl, ?_⟩
        cases hs : pyLoads (pyStrip cap) with
        | some o =>
          rw [extract_strict_passthrough t cap o hle hs] at h
          exact absurd h (by simp)
        | none =>
          refine ⟨rfl, ?_⟩
          cases hr : pyLoads (repair_json (pyStrip cap)) with
          | some v =>
            obtain ⟨w, hw⟩ := extract_some_of_repair_parse t cap v hle hs hr
            rw [hw] at h
            exact absurd h (by simp)
          | none =>
            refine ⟨rfl, ?_⟩
            rw [extract_eq_manual_of_parses_fail t cap hle hs hr] at h
            exact h
    · rintro (h | ⟨cap, h1, hs, hr, hm⟩)
      · exact extract_none_of_locate_none t h
      · exact extract_none_of_all_fail t cap h1 hs hr hm
  · intro t h
    exact extract_none_of_locate_none t (locate_candidate_none_of_no_span t h)

theorem claim_C5_amended_witness :
    extract_json_from_text (("no structured data here 123").data) = none :=
  claim_C5_amended_failure_characterization.2.1 (("no structured data here 123").data)
    (no_span_of_no_rbrace _ (by decide))

/-! ### Claim C7: round-tripping a recovered record -/

/-- A record recoverable by `extract_json_from_text` whose string value
contains a `}` and a backtick fence; written with `\u` escapes in the
reply so that the braces and backticks do not appear literally. -/
def c7_reply : List Char :=
  ("\x7b\"B\": \"\\u007d \\u0060\\u0060\\u0060\"\x7d").data

def c7_record : JValue :=
  JValue.jobj [(("B").data, JValue.jstr (("\x7d \x60\x60\x60").data))]

/-- Claim C7 counterexample: `c7_record` is recovered by
`extract_json_from_text` from `c7_reply`, yet serializing it back into a
JSON-tagged fenced block and re-running extraction yields a total failure
instead of the same record: the literal `} ``` ` inside the string makes
the fenced locator's lazy capture stop at the `}` inside the string,
producing an unparsable candidate.  The strict-parse path is therefore not
round-trip stable. -/
theorem claim_C7_counterexample :
    extract_json_from_text c7_reply = some c7_record ∧
    extract_json_from_text (render_fenced c7_record) = none :=
  ⟨rfl, rfl⟩

/-- Printable ASCII without the backtick: the class of characters whose
JSON escaping is the identity or one of the two-character escapes, and
which can never interfere with the closing fence. -/
def cleanChar (c : Char) : Bool :=
  32 ≤ c.toNat && c.toNat ≤ 126 && ¬ c = bquote

def cleanStr (s : List Char) : Bool := s.all (fun c => cleanChar c)

mutual
/-- Records in the round-trip-stable class: scalars are null, booleans,
integers, or clean strings (no floats), keys are clean and duplicate-free,
and the structure nests arbitrarily. -/
def cleanV : JValue → Bool
  | JValue.jnull => true
  | JValue.jbool _ => true
  | JValue.jint _ => true
  | JValue.jfloat _ _ => false
  | JValue.jstr s => cleanStr s
  | JValue.jarr es => cleanL es
  | JValue.jobj ms => cleanM ms
def cleanL : List JValue → Bool
  | [] => true
  | e :: es => cleanV e && cleanL es
def cleanM : List (List Char × JValue) → Bool
  | [] => true
  | (k, v) :: tl =>
    cleanStr k && cleanV v && tl.all (fun kv => ¬ kv.1 = k) && cleanM tl
end

/-! #### Decimal digits -/

theorem natDigitsGo_fuel (n : Nat) : ∀ f g acc, n < f → n < g →
    natDigitsGo f n acc = natDigitsGo g n acc := by
  induction n using Nat.strongRecOn with
  | _ n ih =>
    intro f g acc hf hg
    match f, hf with
    | f + 1, _ =>
      match g, hg with
      | g + 1, _ =>
        unfold natDigitsGo
        by_cases h10 : n < 10
        · rw [if_pos h10, if_pos h10]
        · rw [if_neg h10, if_neg h10]
          exact ih (n / 10) (by omega) f g _ (by omega) (by omega)

theorem natDigitsGo_append (n : Nat) : ∀ f acc, n < f →
    natDigitsGo f n acc = natDigitsGo f n [] ++ acc := by
  induction n using Nat.strongRecOn with
  | _ n ih =>
    intro f acc hf
    match f, hf with
    | f + 1, _ =>
      unfold natDigitsGo
      by_cases h10 : n < 10
      · rw [if_pos h10, if_pos h10]; rfl
      · rw [if_neg h10, if_neg h10]
        rw [ih (n / 10) (by omega) f _ (by omega),
          ih (n / 10) (by omega) f [Char.ofNat (48 + n % 10)] (by omega)]
        simp

theorem natDigits_unfold (n : Nat) :
    natDigits n
      = (if n < 10 then [] else natDigits (n / 10)) ++ [Char.ofNat (48 + n % 10)] := by
  by_cases h10 : n < 10
  · rw [if_pos h10]
    show natDigitsGo (n + 1) n [] = [] ++ [Char.ofNat (48 + n % 10)]
    conv_lhs => unfold natDigitsGo
    rw [if_pos h10]
    rfl
  · rw [if_neg h10]
    show natDigitsGo (n + 1) n [] = natDigits (n / 10) ++ [Char.ofNat (48 + n % 10)]
    have h1 : natDigitsGo (n + 1) n []
        = natDigitsGo n (n / 10) [Char.ofNat (48 + n % 10)] := by
      conv_lhs => unfold natDigitsGo
      rw [if_neg h10]
    rw [h1, natDigitsGo_append (n / 10) n [Char.ofNat (48 + n % 10)] (by omega),
      natDigitsGo_fuel (n / 10) n (n / 10 + 1) [] (by omega) (by omega)]
    rfl

theorem digit_char_spec (k : Nat) (h : k < 10) :
    (Char.ofNat (48 + k)).toNat = 48 + k ∧ isDigitCh (Char.ofNat (48 + k)) = true := by
  interval_cases k <;> exact ⟨by decide, by decide⟩

theorem natDigits_ne_nil (n : Nat) : natDigits n ≠ [] := by
  rw [natDigits_unfold]; simp

theorem natDigits_digits (n : Nat) : ∀ c ∈ natDigits n, isDigitCh c = true := by
  induction n using Nat.strongRecOn with
  | _ n ih =>
    rw [natDigits_unfold]
    intro c hc
    rw [List.mem_append] at hc
    rcases hc with hc | hc
    · by_cases h10 : n < 10
      · simp [h10] at hc
      · rw [if_neg h10] at hc
        exact ih (n / 10) (by omega) c hc
    · rw [List.mem_singleton] at hc
      subst hc
      exact (digit_char_spec (n % 10) (by omega)).2

theorem natDigits_head_pos (n : Nat) (hn : 0 < n) :
    ∃ c t, natDigits n = c :: t ∧ isDigitCh c = true ∧ c ≠ '0' := by
  induction n using Nat.strongRecOn with
  | _ n ih =>
    rw [natDigits_unfold]
    by_cases h10 : n < 10
    · rw [if_pos h10]
      refine ⟨Char.ofNat (48 + n % 10), [], by simp, (digit_char_spec _ (by omega)).2, ?_⟩
      intro hc
      have := congrArg Char.toNat hc
      rw [(digit_char_spec (n % 10) (by omega)).1] at this
      have : (48 + n % 10) = 48 := this
      omega
    · rw [if_neg h10]
      obtain ⟨c, t, hct, hd, h0⟩ := ih (n / 10) (by omega) (by omega)
      exact ⟨c, t ++ [Char.ofNat (48 + n % 10)], by rw [hct]; simp, hd, h0⟩

theorem foldl_digits_natDigits (n : Nat) :
    (natDigits n).foldl (fun acc c => acc * 10 + (c.toNat - 48)) 0 = n := by
  induction n using Nat.strongRecOn with
  | _ n ih =>
    rw [natDigits_unfold, List.foldl_append]
    by_cases h10 : n < 10
    · simp only [if_pos h10, List.foldl_nil, List.foldl_cons]
      rw [(digit_char_spec (n % 10) (by omega)).1]
      omega
    · simp only [if_neg h10, List.foldl_cons, List.foldl_nil]
      rw [ih (n / 10) (by omega), (digit_char_spec (n % 10) (by omega)).1]
      omega

theorem digitsToNat_natDigits (n : Nat) : digitsToNat (natDigits n) = n :=
  foldl_digits_natDigits n

/-! #### `takeDigits` -/

/-- A remainder that cannot extend a number: empty, or headed by a
character that is neither a digit nor `.`, `e`, `E`. -/
def numStop : List Char → Bool
  | [] => true
  | c :: _ => ! (isDigitCh c || c = '.' || c = 'e' || c = 'E')

theorem numStop_head {c : Char} {t : List Char} (h : numStop (c :: t) = true) :
    isDigitCh c = false ∧ c ≠ '.' ∧ c ≠ 'e' ∧ c ≠ 'E' := by
  simp only [numStop, Bool.not_eq_eq_eq_not, Bool.not_true, Bool.or_eq_false_iff,
    decide_eq_false_iff_not] at h
  exact ⟨h.1.1.1, h.1.1.2, h.1.2, h.2⟩

theorem takeDigits_stop (cs : List Char) (h : numStop cs = true) :
    takeDigits cs = ([], cs) := by
  cases cs with
  | nil => rfl
  | cons c t =>
    unfold takeDigits
    rw [if_neg (by simp [(numStop_head h).1])]

theorem takeDigits_append : ∀ (ds rest : List Char),
    (∀ d ∈ ds, isDigitCh d = true) → takeDigits rest = ([], rest) →
    takeDigits (ds ++ rest) = (ds, rest) := by
  intro ds
  induction ds with
  | nil =>
    intro rest _ h0
    simpa using h0
  | cons d dtl ih =>
    intro rest hall h0
    rw [List.cons_append]
    unfold takeDigits
    rw [if_pos (hall d (List.mem_cons_self d dtl)),
      ih rest (fun x hx => hall x (List.mem_cons_of_mem d hx)) h0]

theorem digit_notDot {c : Char} (h : isDigitCh c = true) :
    c ≠ '.' ∧ c ≠ 'e' ∧ c ≠ 'E' ∧ c ≠ '-' ∧ c ≠ '+' := by
  refine ⟨?_, ?_, ?_, ?_, ?_⟩ <;> intro he <;> subst he <;> exact absurd h (by decide)

/-! #### Number round trip -/

theorem parseFracPart_stop (cs : List Char) (h : numStop cs = true) :
    parseFracPart cs = ([], cs) := by
  cases cs with
  | nil => rfl
  | cons c t =>
    simp only [parseFracPart]
    rw [if_neg (numStop_head h).2.1]

theorem parseExpPart_stop (cs : List Char) (h : numStop cs = true) :
    parseExpPart cs = (0, cs) := by
  cases cs with
  | nil => rfl
  | cons c t =>
    simp only [parseExpPart]
    rw [if_neg (by simp [(numStop_head h).2.2.1, (numStop_head h).2.2.2])]

theorem parseNum_intChars (i : Int) (rest : List Char) (h : numStop rest = true) :
    parseNum (intChars i ++ rest) = some (JValue.jint i, rest) := by
  have hstop : takeDigits rest = ([], rest) := takeDigits_stop rest h
  rcases lt_trichotomy i 0 with hi | hi | hi
  · -- negative
    obtain ⟨c, t, hct, hd, h0⟩ := natDigits_head_pos i.natAbs (by omega)
    have harg : intChars i ++ rest = '-' :: (natDigits i.natAbs ++ rest) := by
      simp [intChars, hi]
    rw [harg, hct]
    simp only [parseNum, List.cons_append, if_true]
    rw [if_neg h0, if_pos hd]
    have htd : takeDigits (c :: (t ++ rest)) = (c :: t, rest) := by
      have := takeDigits_append (natDigits i.natAbs) rest (natDigits_digits _) hstop
      rwa [hct, List.cons_append] at this
    rw [htd]
    simp only [parseFracPart_stop rest h, parseExpPart_stop rest h]
    have hdn : digitsToNat (c :: t) = i.natAbs := by
      have := digitsToNat_natDigits i.natAbs
      rwa [hct] at this
    rw [if_pos (by decide)]
    simp only [hdn, Option.some.injEq, Prod.mk.injEq, JValue.jint.injEq]
    exact ⟨by omega, trivial⟩
  · -- zero
    subst hi
    rw [show intChars 0 ++ rest = '0' :: rest from by
      rw [show intChars 0 = ['0'] from by decide, List.singleton_append]]
    simp only [parseNum]
    simp only [if_neg (by decide : ¬ ('0' : Char) = '-')]
    simp only [if_true]
    simp only [parseFracPart_stop rest h, parseExpPart_stop rest h]
    rw [if_pos (by decide)]
    simp only [Option.some.injEq, Prod.mk.injEq, JValue.jint.injEq]
    exact ⟨by decide, trivial⟩
  · -- positive
    obtain ⟨c, t, hct, hd, h0⟩ := natDigits_head_pos i.natAbs (by omega)
    obtain ⟨hdot, he, hE, hminus, hplus⟩ := digit_notDot hd
    have harg : intChars i ++ rest = c :: (t ++ rest) := by
      simp [intChars, show ¬ i < 0 by omega, hct]
    rw [harg]
    simp only [parseNum]
    simp only [if_neg hminus]
    rw [if_neg h0, if_pos hd]
    have htd : takeDigits (c :: (t ++ rest)) = (c :: t, rest) := by
      have := takeDigits_append (natDigits i.natAbs) rest (natDigits_digits _) hstop
      rwa [hct, List.cons_append] at this
    rw [htd]
    simp only [parseFracPart_stop rest h, parseExpPart_stop rest h]
    have hdn : digitsToNat (c :: t) = i.natAbs := by
      have := digitsToNat_natDigits i.natAbs
      rwa [hct] at this
    rw [if_pos (by decide)]
    simp only [hdn, if_neg (by decide : ¬ false = true), one_mul,
      Option.some.injEq, Prod.mk.injEq, JValue.jint.injEq]
    exact ⟨by omega, trivial⟩

/-! #### Parser step equations

`parseVal` and `parseMembers` first strip whitespace and then dispatch on
the head character; the `Core` forms below expose that dispatch on an
already-stripped list, so that each step of a parse of rendered output can
be followed by rewriting. -/

def parseValCore (fuel : Nat) (cs : List Char) : Option (JValue × List Char) :=
  match cs with
  | 'n' :: 'u' :: 'l' :: 'l' :: r => some (JValue.jnull, r)
  | 't' :: 'r' :: 'u' :: 'e' :: r => some (JValue.jbool true, r)
  | 'f' :: 'a' :: 'l' :: 's' :: 'e' :: r => some (JValue.jbool false, r)
  | c :: r =>
    if c = dquote then
      match parseJStr r with
      | some (s, r2) => some (JValue.jstr s, r2)
      | none => none
    else if c = lbrace then
      match skipWsJ r with
      | c2 :: r2 =>
        if c2 = rbrace then some (JValue.jobj [], r2)
        else
          match parseMembers fuel (c2 :: r2) with
          | some (ps, r3) => some (JValue.jobj (dictOfPairs ps), r3)
          | none => none
      | [] => none
    else if c = '[' then
      match skipWsJ r with
      | c2 :: r2 =>
        if c2 = ']' then some (JValue.jarr [], r2)
        else
          match parseElems fuel (c2 :: r2) with
          | some (es, r3) => some (JValue.jarr es, r3)
          | none => none
      | [] => none
    else if c = '-' || isDigitCh c then parseNum (c :: r)
    else none
  | [] => none

def parseMembersCore (fuel : Nat) (cs : List Char) :
    Option (List (List Char × JValue) × List Char) :=
  match cs with
  | c :: r =>
    if c = dquote then
      match parseJStr r with
      | none => none
      | some (key, r1) =>
        match skipWsJ r1 with
        | ':' :: r2 =>
          match parseVal fuel r2 with
          | none => none
          | some (v, r3) =>
            match skipWsJ r3 with
            | ',' :: r4 =>
              match parseMembers fuel r4 with
              | some (ps, r5) => some ((key, v) :: ps, r5)
              | none => none
            | c4 :: r4 =>
              if c4 = rbrace then some ([(key, v)], r4) else none
            | [] => none
        | _ => none
    else none
  | [] => none

theorem parseVal_eq (f : Nat) (cs : List Char) :
    parseVal (f + 1) cs = parseValCore f (skipWsJ cs) := rfl

theorem parseMembers_eq (f : Nat) (cs : List Char) :
    parseMembers (f + 1) cs = parseMembersCore f (skipWsJ cs) := rfl

theorem parseElems_step (f : Nat) (cs : List Char) :
    parseElems (f + 1) cs =
      (match parseVal f cs with
       | none => none
       | some (v, r) =>
         match skipWsJ r with
         | ',' :: r2 =>
           (match parseElems f r2 with
            | some (es, r3) => some (v :: es, r3)
            | none => none)
         | ']' :: r2 => some ([v], r2)
         | _ => none) := rfl

/-! #### Whitespace and head-character lemmas -/

theorem skipWsJ_cons_ws {c : Char} (l : List Char) (h : isWsJ c = true) :
    skipWsJ (c :: l) = skipWsJ l := by
  simp [skipWsJ, h]

theorem skipWsJ_cons_nws {c : Char} (l : List Char) (h : isWsJ c = false) :
    skipWsJ (c :: l) = c :: l := by
  simp [skipWsJ, h]

theorem skipWsJ_ws_append (ws : List Char) (l : List Char)
    (h : ws.all (fun c => isWsJ c) = true) : skipWsJ (ws ++ l) = skipWsJ l := by
  induction ws with
  | nil => rfl
  | cons c t ih =>
    simp only [List.all_cons, Bool.and_eq_true] at h
    rw [List.cons_append, skipWsJ_cons_ws _ h.1, ih h.2]

theorem nlIndent_all_ws (ind : Nat) :
    (nlIndent ind).all (fun c => isWsJ c) = true := by
  simp only [nlIndent, List.all_cons, Bool.and_eq_true]
  refine ⟨by decide, ?_⟩
  simp only [List.all_eq_true]
  intro c hc
  rw [List.eq_of_mem_replicate hc]
  decide

theorem skipWsJ_nlIndent (ind : Nat) (l : List Char) :
    skipWsJ (nlIndent ind ++ l) = skipWsJ l :=
  skipWsJ_ws_append _ l (nlIndent_all_ws ind)

theorem digit_cases (c : Char) (h : isDigitCh c = true) :
    c = '0' ∨ c = '1' ∨ c = '2' ∨ c = '3' ∨ c = '4' ∨
    c = '5' ∨ c = '6' ∨ c = '7' ∨ c = '8' ∨ c = '9' := by
  simp only [isDigitCh, Bool.and_eq_true, decide_eq_true_eq] at h
  have h48 : 48 ≤ c.toNat := h.1
  have h57 : c.toNat ≤ 57 := h.2
  have hc := Char.ofNat_toNat c
  interval_cases h : c.toNat <;> rw [← hc] <;> decide

theorem digit_not_special {c : Char} (h : isDigitCh c = true) :
    isWsJ c = false ∧ (c = ']') = False ∧ (c = dquote) = False ∧
    (c = lbrace) = False ∧ (c = '[') = False := by
  rcases digit_cases c h with h | h | h | h | h | h | h | h | h | h <;>
    subst h <;> refine ⟨by decide, by simp [lbrace, dquote], by simp [lbrace, dquote],
      by simp [lbrace, dquote], by simp [lbrace, dquote]⟩

theorem parseVal_skipWsPre (f : Nat) (ws l : List Char)
    (h : ws.all (fun c => isWsJ c) = true) :
    parseVal (f + 1) (ws ++ l) = parseVal (f + 1) l := by
  rw [parseVal_eq, parseVal_eq, skipWsJ_ws_append ws l h]

theorem parseValCore_digit (f : Nat) (c : Char) (l : List Char)
    (h : isDigitCh c = true) :
    parseValCore f (c :: l) = parseNum (c :: l) := by
  rcases digit_cases c h with h | h | h | h | h | h | h | h | h | h <;> subst h <;> rfl

theorem parseValCore_dash (f : Nat) (l : List Char) :
    parseValCore f ('-' :: l) = parseNum ('-' :: l) := rfl

theorem parseValCore_quote (f : Nat) (l : List Char) :
    parseValCore f (dquote :: l) =
      (match parseJStr l with
       | some (s, r2) => some (JValue.jstr s, r2)
       | none => none) := rfl

theorem parseValCore_lbrack (f : Nat) (l : List Char) :
    parseValCore f ('[' :: l) =
      (match skipWsJ l with
       | c2 :: r2 =>
         if c2 = ']' then some (JValue.jarr [], r2)
         else
           match parseElems f (c2 :: r2) with
           | some (es, r3) => some (JValue.jarr es, r3)
           | none => none
       | [] => none) := rfl

theorem parseValCore_lcurl (f : Nat) (l : List Char) :
    parseValCore f (lbrace :: l) =
      (match skipWsJ l with
       | c2 :: r2 =>
         if c2 = rbrace then some (JValue.jobj [], r2)
         else
           match parseMembers f (c2 :: r2) with
           | some (ps, r3) => some (JValue.jobj (dictOfPairs ps), r3)
           | none => none
       | [] => none) := rfl

/-! #### String escape round trip -/

theorem cleanChar_spec {c : Char} (h : cleanChar c = true) :
    32 ≤ c.toNat ∧ c.toNat ≤ 126 ∧ ¬ c = bquote := by
  simp only [cleanChar, Bool.and_eq_true, decide_eq_true_eq] at h
  exact ⟨h.1.1, h.1.2, h.2⟩

/-- Escaping a clean character yields `\"`, `\\`, or the character
itself. -/
theorem escapeChar_clean {c : Char} (h : cleanChar c = true) :
    (c = dquote ∧ escapeChar c = ['\\', dquote]) ∨
    (c = '\\' ∧ escapeChar c = ['\\', '\\']) ∨
    (¬ c = dquote ∧ ¬ c = '\\' ∧ escapeChar c = [c]) := by
  obtain ⟨h32, h126, _⟩ := cleanChar_spec h
  by_cases hq : c = dquote
  · refine Or.inl ⟨hq, ?_⟩
    rw [hq]
    rfl
  · by_cases hb : c = '\\'
    · refine Or.inr (Or.inl ⟨hb, ?_⟩)
      rw [hb]
      rfl
    · refine Or.inr (Or.inr ⟨hq, hb, ?_⟩)
      have h10 : ¬ c = Char.ofNat 10 := by
        intro he; rw [he] at h32; exact absurd h32 (by decide)
      have h13 : ¬ c = Char.ofNat 13 := by
        intro he; rw [he] at h32; exact absurd h32 (by decide)
      have h9 : ¬ c = Char.ofNat 9 := by
        intro he; rw [he] at h32; exact absurd h32 (by decide)
      have h8 : ¬ c = Char.ofNat 8 := by
        intro he; rw [he] at h32; exact absurd h32 (by decide)
      have h12 : ¬ c = Char.ofNat 12 := by
        intro he; rw [he] at h32; exact absurd h32 (by decide)
      simp only [escapeChar, if_neg hq, if_neg hb, if_neg h10, if_neg h13,
        if_neg h9, if_neg h8, if_neg h12]
      rw [if_neg (by
        simp only [Bool.or_eq_true, decide_eq_true_eq, not_or, not_lt]
        omega : ¬ (c.toNat < 32 || 126 < c.toNat) = true)]

theorem parseStrAux_dquote (f : Nat) (acc l : List Char) :
    parseStrAux (f + 1) acc ('\\' :: dquote :: l)
      = parseStrAux f (dquote :: acc) l := rfl

theorem parseStrAux_bslash (f : Nat) (acc l : List Char) :
    parseStrAux (f + 1) acc ('\\' :: '\\' :: l)
      = parseStrAux f ('\\' :: acc) l := rfl

theorem parseStrAux_close (f : Nat) (acc l : List Char) :
    parseStrAux (f + 1) acc (dquote :: l) = some (acc.reverse, l) := by
  rw [parseStrAux.eq_def]
  dsimp only
  rw [if_pos rfl]

theorem parseStrAux_plain (f : Nat) (acc l : List Char) {c : Char}
    (hq : ¬ c = dquote) (hb : ¬ c = '\\') (h32 : ¬ c.toNat < 32) :
    parseStrAux (f + 1) acc (c :: l) = parseStrAux f (c :: acc) l := by
  rw [parseStrAux.eq_def]
  dsimp only
  rw [if_neg hq, if_neg hb, if_neg h32]

/-- The strict string scanner inverts `ensure_ascii` escaping of a clean
string. -/
theorem parseStrAux_escaped (s : List Char) : ∀ f acc rest,
    cleanStr s = true →
    ((s.map escapeChar).flatten ++ dquote :: rest).length < f →
    parseStrAux f acc ((s.map escapeChar).flatten ++ dquote :: rest)
      = some (acc.reverse ++ s, rest) := by
  induction s with
  | nil =>
    intro f acc rest _ hf
    match f, hf with
    | f + 1, _ => simp [parseStrAux_close]
  | cons c t ih =>
    intro f acc rest hc hf
    match f, hf with
    | f + 1, hf =>
      simp only [cleanStr, List.all_cons, Bool.and_eq_true] at hc
      simp only [List.map_cons, List.flatten_cons, List.append_assoc] at hf ⊢
      rcases escapeChar_clean hc.1 with ⟨he, hr⟩ | ⟨he, hr⟩ | ⟨hq, hb, hr⟩
      · subst he
        rw [hr] at hf ⊢
        simp only [List.cons_append, List.nil_append, parseStrAux_dquote]
        rw [ih f (dquote :: acc) rest hc.2 (by simp at hf ⊢; omega)]
        simp
      · subst he
        rw [hr] at hf ⊢
        simp only [List.cons_append, List.nil_append, parseStrAux_bslash]
        rw [ih f ('\\' :: acc) rest hc.2 (by simp at hf ⊢; omega)]
        simp
      · rw [hr] at hf ⊢
        have h32 : ¬ c.toNat < 32 := by
          have := (cleanChar_spec hc.1).1; omega
        simp only [List.cons_append, List.nil_append,
          parseStrAux_plain _ _ _ hq hb h32]
        rw [ih f (c :: acc) rest hc.2 (by simp at hf ⊢; omega)]
        simp

theorem parseJStr_escaped (s rest : List Char) (h : cleanStr s = true) :
    parseJStr ((s.map escapeChar).flatten ++ dquote :: rest) = some (s, rest) := by
  simp only [parseJStr]
  rw [parseStrAux_escaped s _ [] rest h (Nat.lt_succ_self _)]
  simp

/-! #### Stop-condition and head-shape lemmas for rendered output -/

theorem isWsJ_cases {c : Char} (h : isWsJ c = true) :
    c = ' ' ∨ c = Char.ofNat 9 ∨ c = Char.ofNat 10 ∨ c = Char.ofNat 13 := by
  simp only [isWsJ, Bool.or_eq_true, decide_eq_true_eq] at h
  tauto

theorem numStop_ws {c : Char} (h : isWsJ c = true) (l : List Char) :
    numStop (c :: l) = true := by
  rcases isWsJ_cases h with h | h | h | h <;> subst h <;> rfl

theorem numStop_ws_append (ws l : List Char)
    (hws : ws.all (fun c => isWsJ c) = true) (hl : numStop l = true) :
    numStop (ws ++ l) = true := by
  cases ws with
  | nil => simpa using hl
  | cons w t =>
    simp only [List.all_cons, Bool.and_eq_true] at hws
    exact numStop_ws hws.1 _

theorem numStop_rbrace (l : List Char) : numStop (rbrace :: l) = true := rfl

theorem numStop_rbrack (l : List Char) : numStop (']' :: l) = true := rfl

theorem natDigits_head (n : Nat) :
    ∃ c t, natDigits n = c :: t ∧ isDigitCh c = true := by
  by_cases h : n = 0
  · exact ⟨'0', [], by rw [h]; decide, by decide⟩
  · obtain ⟨c, t, hct, hd, _⟩ := natDigits_head_pos n (by omega)
    exact ⟨c, t, hct, hd⟩

/-- The first character of any rendered clean value is never whitespace and
never a closing bracket. -/
theorem renderVal_head (ind : Nat) (v : JValue) (hv : cleanV v = true) :
    ∃ c t, renderVal ind v = c :: t ∧ isWsJ c = false ∧ ¬ c = ']' := by
  cases v with
  | jnull => exact ⟨'n', _, rfl, by decide, by decide⟩
  | jbool b =>
    cases b with
    | false => exact ⟨'f', _, rfl, by decide, by decide⟩
    | true => exact ⟨'t', _, rfl, by decide, by decide⟩
  | jint n =>
    by_cases h : n < 0
    · exact ⟨'-', natDigits n.natAbs, by simp [renderVal, intChars, h],
        by decide, by decide⟩
    · obtain ⟨c, t, hct, hd⟩ := natDigits_head n.natAbs
      refine ⟨c, t, by simp [renderVal, intChars, h, hct], ?_, ?_⟩
      · exact (digit_not_special hd).1
      · simpa using (digit_not_special hd).2.1
  | jfloat m e => exact absurd hv (by simp [cleanV])
  | jstr s => exact ⟨dquote, _, rfl, by decide, by decide⟩
  | jarr es =>
    cases es with
    | nil => exact ⟨'[', _, rfl, by decide, by decide⟩
    | cons e tl => exact ⟨'[', _, rfl, by decide, by decide⟩
  | jobj ms =>
    cases ms with
    | nil => exact ⟨lbrace, _, rfl, by decide, by decide⟩
    | cons m tl => exact ⟨lbrace, _, rfl, by decide, by decide⟩

theorem renderMembers_head (ind : Nat) (k : List Char) (v : JValue)
    (ms : List (List Char × JValue)) :
    ∃ t, renderMembers ind ((k, v) :: ms) = dquote :: t := by
  cases ms with
  | nil =>
    refine ⟨((k.map escapeChar).flatten ++ [dquote])
      ++ ':' :: ' ' :: renderVal ind v, ?_⟩
    simp [renderMembers, renderStrChars]
  | cons m2 tl =>
    refine ⟨((k.map escapeChar).flatten ++ [dquote])
      ++ ':' :: ' ' :: (renderVal ind v
        ++ ',' :: (nlIndent ind ++ renderMembers ind (m2 :: tl))), ?_⟩
    simp [renderMembers, renderStrChars]

theorem renderElems_head (ind : Nat) (e : JValue) (es : List JValue)
    (he : cleanV e = true) :
    ∃ c t, renderElems ind (e :: es) = c :: t ∧ isWsJ c = false ∧ ¬ c = ']' := by
  obtain ⟨c, t, h, h1, h2⟩ := renderVal_head ind e he
  cases es with
  | nil => exact ⟨c, t, by simpa [renderElems] using h, h1, h2⟩
  | cons e2 tl =>
    refine ⟨c, t ++ ',' :: (nlIndent ind ++ renderElems ind (e2 :: tl)),
      ?_, h1, h2⟩
    simp [renderElems, h]

/-! #### `dict` of distinct keys -/

theorem cleanM_cons {k : List Char} {v : JValue}
    {tl : List (List Char × JValue)} (h : cleanM ((k, v) :: tl) = true) :
    cleanStr k = true ∧ cleanV v = true ∧
    tl.all (fun kv => ¬ kv.1 = k) = true ∧ cleanM tl = true := by
  simp only [cleanM, Bool.and_eq_true] at h
  exact ⟨h.1.1.1, h.1.1.2, h.1.2, h.2⟩

theorem upsertPair_fresh (k : List Char) (v : JValue) :
    ∀ acc, (∀ kv ∈ acc, ¬ kv.1 = k) → upsertPair k v acc = acc ++ [(k, v)] := by
  intro acc
  induction acc with
  | nil => intro _; rfl
  | cons kv tl ih =>
    intro h
    obtain ⟨k2, v2⟩ := kv
    simp only [upsertPair]
    rw [if_neg (h (k2, v2) (by simp)), ih (fun x hx => h x (by simp [hx]))]
    simp

theorem foldl_upsert_fresh :
    ∀ (ms acc : List (List Char × JValue)), cleanM ms = true →
      (∀ kv ∈ ms, ∀ kv2 ∈ acc, ¬ kv2.1 = kv.1) →
      ms.foldl (fun a kv => upsertPair kv.1 kv.2 a) acc = acc ++ ms := by
  intro ms
  induction ms with
  | nil => intro acc _ _; simp
  | cons kv tl ih =>
    intro acc hc hfresh
    obtain ⟨k, v⟩ := kv
    obtain ⟨_, _, htl, hctl⟩ := cleanM_cons hc
    simp only [List.foldl_cons]
    rw [upsertPair_fresh k v acc (fun x hx => hfresh (k, v) (by simp) x hx)]
    rw [ih (acc ++ [(k, v)]) hctl ?_]
    · simp
    · intro kv2 h2 kv3 h3
      rcases List.mem_append.1 h3 with h3 | h3
      · exact hfresh kv2 (by simp [h2]) kv3 h3
      · rw [List.mem_singleton] at h3
        subst h3
        simp only [List.all_eq_true] at htl
        have h4 : ¬ kv2.1 = k := by simpa using htl kv2 h2
        exact fun he => h4 (by simpa using he.symm)

theorem dictOfPairs_clean (ms : List (List Char × JValue))
    (h : cleanM ms = true) : dictOfPairs ms = ms := by
  simpa using foldl_upsert_fresh ms [] h (by simp)

/-! #### The round trip of rendered clean values -/

/-- One member of a rendered object: the key string parses back, the colon
and space are consumed, and the member's continuation is reached. -/
theorem parseMembersCore_member (f : Nat) (k V : List Char) (v : JValue)
    (mid : List Char) (hk : cleanStr k = true)
    (hVal : parseVal f (' ' :: (V ++ mid)) = some (v, mid)) :
    parseMembersCore f
        (dquote :: ((k.map escapeChar).flatten ++ dquote ::
          (':' :: ' ' :: (V ++ mid))))
      = (match skipWsJ mid with
         | ',' :: r4 =>
           (match parseMembers f r4 with
            | some (ps, r5) => some ((k, v) :: ps, r5)
            | none => none)
         | c4 :: r4 =>
           if c4 = rbrace then some ([(k, v)], r4) else none
         | [] => none) := by
  have h1 : skipWsJ (':' :: ' ' :: (V ++ mid)) = ':' :: ' ' :: (V ++ mid) :=
    skipWsJ_cons_nws _ (by decide)
  simp only [parseMembersCore, if_true]
  simp only [parseJStr_escaped k _ hk, h1, hVal]

theorem numStop_comma (l : List Char) : numStop (',' :: l) = true := rfl

/-- The fuel-indexed round trip: strict parsing inverts `json.dumps` on
clean values, non-empty member lists (followed by optional whitespace and
the closing brace), and non-empty element lists (followed by optional
whitespace and the closing bracket). -/
theorem rt_fuel : ∀ fuel : Nat,
    (∀ v ind rest, cleanV v = true → numStop rest = true →
        (renderVal ind v).length < fuel →
        parseVal fuel (renderVal ind v ++ rest) = some (v, rest)) ∧
    (∀ ms ind pre ws rest, cleanM ms = true → ¬ ms = [] →
        pre.all (fun c => isWsJ c) = true → ws.all (fun c => isWsJ c) = true →
        (renderMembers ind ms).length < fuel →
        parseMembers fuel
            (pre ++ (renderMembers ind ms ++ (ws ++ rbrace :: rest)))
          = some (ms, rest)) ∧
    (∀ es ind pre ws rest, cleanL es = true → ¬ es = [] →
        pre.all (fun c => isWsJ c) = true → ws.all (fun c => isWsJ c) = true →
        (renderElems ind es).length + 1 < fuel →
        parseElems fuel
            (pre ++ (renderElems ind es ++ (ws ++ ']' :: rest)))
          = some (es, rest)) := by
  intro fuel
  induction fuel with
  | zero =>
    exact ⟨fun v ind rest _ _ h => absurd h (by omega),
      fun ms ind pre ws rest _ _ _ _ h => absurd h (by omega),
      fun es ind pre ws rest _ _ _ _ h => absurd h (by omega)⟩
  | succ f ih =>
    obtain ⟨ihv, ihm, ihe⟩ := ih
    refine ⟨?_, ?_, ?_⟩
    · -- values
      intro v ind rest hv hstop hlen
      cases v with
      | jnull => rfl
      | jbool b => cases b with | false => rfl | true => rfl
      | jfloat m e => exact absurd hv (by simp [cleanV])
      | jint n =>
        by_cases hn : n < 0
        · have harg : renderVal ind (JValue.jint n) ++ rest
              = '-' :: (natDigits n.natAbs ++ rest) := by
            simp [renderVal, intChars, hn]
          rw [harg, parseVal_eq, skipWsJ_cons_nws _ (by decide),
            parseValCore_dash]
          have hback : '-' :: (natDigits n.natAbs ++ rest)
              = intChars n ++ rest := by
            simp [intChars, hn]
          rw [hback]
          exact parseNum_intChars n rest hstop
        · obtain ⟨c, t, hct, hd⟩ := natDigits_head n.natAbs
          have harg : renderVal ind (JValue.jint n) ++ rest
              = c :: (t ++ rest) := by
            simp [renderVal, intChars, hn, hct]
          rw [harg, parseVal_eq, skipWsJ_cons_nws _ (digit_not_special hd).1,
            parseValCore_digit f c _ hd]
          have hback : c :: (t ++ rest) = intChars n ++ rest := by
            simp [intChars, hn, hct]
          rw [hback]
          exact parseNum_intChars n rest hstop
      | jstr s =>
        have hs : cleanStr s = true := by simpa [cleanV] using hv
        have harg : renderVal ind (JValue.jstr s) ++ rest
            = dquote :: ((s.map escapeChar).flatten ++ dquote :: rest) := by
          simp [renderVal, renderStrChars]
        rw [harg, parseVal_eq, skipWsJ_cons_nws _ (by decide),
          parseValCore_quote]
        simp only [parseJStr_escaped s rest hs]
      | jarr es =>
        cases es with
        | nil => rfl
        | cons e tl =>
          have hcl : cleanV e = true ∧ cleanL tl = true := by
            simpa [cleanV, cleanL] using hv
          obtain ⟨c2, t2, hE, hnw, hnr⟩ := renderElems_head (ind+2) e tl hcl.1
          have harg : renderVal ind (JValue.jarr (e :: tl)) ++ rest
              = '[' :: (nlIndent (ind+2) ++ (renderElems (ind+2) (e :: tl)
                  ++ (nlIndent ind ++ ']' :: rest))) := by
            simp [renderVal, List.append_assoc]
          rw [harg, parseVal_eq, skipWsJ_cons_nws _ (by decide),
            parseValCore_lbrack]
          have hskip : skipWsJ (nlIndent (ind+2)
              ++ (renderElems (ind+2) (e :: tl)
                ++ (nlIndent ind ++ ']' :: rest)))
              = c2 :: (t2 ++ (nlIndent ind ++ ']' :: rest)) := by
            rw [skipWsJ_nlIndent, hE, List.cons_append,
              skipWsJ_cons_nws _ hnw]
          have hlen2 : (renderElems (ind+2) (e :: tl)).length + 1 < f := by
            simp [renderVal, List.length_append, nlIndent] at hlen
            omega
          have hel : parseElems f (renderElems (ind+2) (e :: tl)
              ++ (nlIndent ind ++ ']' :: rest)) = some (e :: tl, rest) := by
            have := ihe (e :: tl) (ind+2) [] (nlIndent ind) rest
              (by simp [cleanL, hcl.1, hcl.2]) (by simp) (by simp)
              (nlIndent_all_ws ind) hlen2
            simpa using this
          simp only [hskip]
          rw [if_neg hnr]
          rw [← List.cons_append, ← hE]
          simp only [hel]
      | jobj ms =>
        cases ms with
        | nil => rfl
        | cons m tl =>
          obtain ⟨k, v⟩ := m
          have hcm : cleanM ((k, v) :: tl) = true := by
            simpa [cleanV] using hv
          obtain ⟨t2, hM⟩ := renderMembers_head (ind+2) k v tl
          have harg : renderVal ind (JValue.jobj ((k, v) :: tl)) ++ rest
              = lbrace :: (nlIndent (ind+2)
                  ++ (renderMembers (ind+2) ((k, v) :: tl)
                    ++ (nlIndent ind ++ rbrace :: rest))) := by
            simp [renderVal, List.append_assoc]
          rw [harg, parseVal_eq, skipWsJ_cons_nws _ (by decide),
            parseValCore_lcurl]
          have hskip : skipWsJ (nlIndent (ind+2)
              ++ (renderMembers (ind+2) ((k, v) :: tl)
                ++ (nlIndent ind ++ rbrace :: rest)))
              = dquote :: (t2 ++ (nlIndent ind ++ rbrace :: rest)) := by
            rw [skipWsJ_nlIndent, hM, List.cons_append,
              skipWsJ_cons_nws _ (by decide)]
          have hlen2 : (renderMembers (ind+2) ((k, v) :: tl)).length < f := by
            simp [renderVal, List.length_append, nlIndent] at hlen
            omega
          have hmem : parseMembers f (renderMembers (ind+2) ((k, v) :: tl)
              ++ (nlIndent ind ++ rbrace :: rest))
              = some ((k, v) :: tl, rest) := by
            have := ihm ((k, v) :: tl) (ind+2) [] (nlIndent ind) rest hcm
              (by simp) (by simp) (nlIndent_all_ws ind) hlen2
            simpa using this
          simp only [hskip]
          rw [if_neg (by decide : ¬ dquote = rbrace)]
          rw [← List.cons_append, ← hM]
          simp only [hmem, dictOfPairs_clean _ hcm]
    · -- members
      intro ms ind pre ws rest hc hne hpre hws hlen
      match ms, hne with
      | (k, v) :: tl, _ =>
        obtain ⟨hk, hvv, hfresh, hctl⟩ := cleanM_cons hc
        rw [parseMembers_eq]
        cases tl with
        | nil =>
          have hshape : pre ++ (renderMembers ind [(k, v)]
                ++ (ws ++ rbrace :: rest))
              = pre ++ (dquote :: ((k.map escapeChar).flatten ++ dquote ::
                  (':' :: ' ' :: (renderVal ind v
                    ++ (ws ++ rbrace :: rest))))) := by
            simp [renderMembers, renderStrChars]
          rw [hshape, skipWsJ_ws_append _ _ hpre,
            skipWsJ_cons_nws _ (by decide)]
          have hf2 : (renderVal ind v).length + 1 < f := by
            simp [renderMembers, renderStrChars, List.length_append] at hlen
            omega
          obtain ⟨f', rfl⟩ : ∃ f', f = f' + 1 := ⟨f - 1, by omega⟩
          have hVal : parseVal (f' + 1) (' ' :: (renderVal ind v
              ++ (ws ++ rbrace :: rest)))
              = some (v, ws ++ rbrace :: rest) := by
            have hp := parseVal_skipWsPre f' [' ']
              (renderVal ind v ++ (ws ++ rbrace :: rest)) (by decide)
            rw [List.singleton_append] at hp
            rw [hp]
            exact ihv v ind _ hvv
              (numStop_ws_append ws _ hws (numStop_rbrace rest)) (by omega)
          rw [parseMembersCore_member (f' + 1) k (renderVal ind v) v
            (ws ++ rbrace :: rest) hk hVal]
          have hsk2 : skipWsJ (ws ++ rbrace :: rest) = rbrace :: rest := by
            rw [skipWsJ_ws_append _ _ hws]
            exact skipWsJ_cons_nws _ (by decide)
          simp only [hsk2]
          rfl
        | cons m2 tl2 =>
          have hshape : pre ++ (renderMembers ind ((k, v) :: m2 :: tl2)
                ++ (ws ++ rbrace :: rest))
              = pre ++ (dquote :: ((k.map escapeChar).flatten ++ dquote ::
                  (':' :: ' ' :: (renderVal ind v
                    ++ (',' :: (nlIndent ind
                      ++ (renderMembers ind (m2 :: tl2)
                        ++ (ws ++ rbrace :: rest)))))))) := by
            simp [renderMembers, renderStrChars]
          rw [hshape, skipWsJ_ws_append _ _ hpre,
            skipWsJ_cons_nws _ (by decide)]
          have hb : 1 ≤ (renderMembers ind (m2 :: tl2)).length := by
            obtain ⟨t3, h3⟩ := renderMembers_head ind m2.1 m2.2 tl2
            simp [h3]
          have hf2 : (renderVal ind v).length + 1 < f ∧
              (renderMembers ind (m2 :: tl2)).length < f := by
            simp [renderMembers, renderStrChars, List.length_append,
              nlIndent] at hlen
            omega
          obtain ⟨f', rfl⟩ : ∃ f', f = f' + 1 := ⟨f - 1, by omega⟩
          have hVal : parseVal (f' + 1) (' ' :: (renderVal ind v
              ++ (',' :: (nlIndent ind ++ (renderMembers ind (m2 :: tl2)
                ++ (ws ++ rbrace :: rest))))))
              = some (v, ',' :: (nlIndent ind
                  ++ (renderMembers ind (m2 :: tl2)
                    ++ (ws ++ rbrace :: rest)))) := by
            have hp := parseVal_skipWsPre f' [' ']
              (renderVal ind v ++ (',' :: (nlIndent ind
                ++ (renderMembers ind (m2 :: tl2)
                  ++ (ws ++ rbrace :: rest))))) (by decide)
            rw [List.singleton_append] at hp
            rw [hp]
            exact ihv v ind _ hvv (numStop_comma _) (by omega)
          rw [parseMembersCore_member (f' + 1) k (renderVal ind v) v
            (',' :: (nlIndent ind ++ (renderMembers ind (m2 :: tl2)
              ++ (ws ++ rbrace :: rest)))) hk hVal]
          have hsk2 : skipWsJ (',' :: (nlIndent ind
              ++ (renderMembers ind (m2 :: tl2) ++ (ws ++ rbrace :: rest))))
              = ',' :: (nlIndent ind ++ (renderMembers ind (m2 :: tl2)
                  ++ (ws ++ rbrace :: rest))) :=
            skipWsJ_cons_nws _ (by decide)
          simp only [hsk2]
          have hrec : parseMembers (f' + 1) (nlIndent ind
              ++ (renderMembers ind (m2 :: tl2) ++ (ws ++ rbrace :: rest)))
              = some (m2 :: tl2, rest) :=
            ihm (m2 :: tl2) ind (nlIndent ind) ws rest hctl (by simp)
              (nlIndent_all_ws ind) hws hf2.2
          simp only [hrec]
    · -- elements
      intro es ind pre ws rest hc hne hpre hws hlen
      match es, hne with
      | e :: tl, _ =>
        have hce : cleanV e = true ∧ cleanL tl = true := by
          simpa [cleanL] using hc
        have hV1 : 1 ≤ (renderVal ind e).length := by
          obtain ⟨c, t, h, _, _⟩ := renderVal_head ind e hce.1
          simp [h]
        rw [parseElems_step]
        cases tl with
        | nil =>
          have hre : renderElems ind [e] = renderVal ind e := by
            simp [renderElems]
          rw [hre] at hlen ⊢
          obtain ⟨f', rfl⟩ : ∃ f', f = f' + 1 := ⟨f - 1, by omega⟩
          have hVal : parseVal (f' + 1) (pre ++ (renderVal ind e
              ++ (ws ++ ']' :: rest))) = some (e, ws ++ ']' :: rest) := by
            rw [parseVal_skipWsPre f' pre _ hpre]
            exact ihv e ind _ hce.1
              (numStop_ws_append ws _ hws (numStop_rbrack rest)) (by omega)
          simp only [hVal]
          have hsk : skipWsJ (ws ++ ']' :: rest) = ']' :: rest := by
            rw [skipWsJ_ws_append _ _ hws]
            exact skipWsJ_cons_nws _ (by decide)
          simp only [hsk]
        | cons e2 tl2 =>
          have hre : renderElems ind (e :: e2 :: tl2)
              = renderVal ind e ++ (',' :: (nlIndent ind
                  ++ renderElems ind (e2 :: tl2))) := by
            simp [renderElems]
          rw [hre] at hlen ⊢
          have hE1 : 1 ≤ (renderElems ind (e2 :: tl2)).length := by
            obtain ⟨c, t, h, _, _⟩ := renderElems_head ind e2 tl2
              (by have h2 := hce.2; simp [cleanL] at h2; exact h2.1)
            simp [h]
          have hf2 : (renderVal ind e).length < f ∧
              (renderElems ind (e2 :: tl2)).length + 1 < f := by
            simp [List.length_append, nlIndent] at hlen
            omega
          obtain ⟨f', rfl⟩ : ∃ f', f = f' + 1 := ⟨f - 1, by omega⟩
          have hshape : pre ++ ((renderVal ind e ++ (',' :: (nlIndent ind
                ++ renderElems ind (e2 :: tl2)))) ++ (ws ++ ']' :: rest))
              = pre ++ (renderVal ind e ++ (',' :: (nlIndent ind
                  ++ (renderElems ind (e2 :: tl2)
                    ++ (ws ++ ']' :: rest))))) := by
            simp
          rw [hshape]
          have hVal : parseVal (f' + 1) (pre ++ (renderVal ind e
              ++ (',' :: (nlIndent ind ++ (renderElems ind (e2 :: tl2)
                ++ (ws ++ ']' :: rest))))))
              = some (e, ',' :: (nlIndent ind
                  ++ (renderElems ind (e2 :: tl2)
                    ++ (ws ++ ']' :: rest)))) := by
            rw [parseVal_skipWsPre f' pre _ hpre]
            exact ihv e ind _ hce.1 (numStop_comma _) (by omega)
          simp only [hVal]
          have hsk : skipWsJ (',' :: (nlIndent ind
              ++ (renderElems ind (e2 :: tl2) ++ (ws ++ ']' :: rest))))
              = ',' :: (nlIndent ind ++ (renderElems ind (e2 :: tl2)
                  ++ (ws ++ ']' :: rest))) :=
            skipWsJ_cons_nws _ (by decide)
          simp only [hsk]
          have hrec : parseElems (f' + 1) (nlIndent ind
              ++ (renderElems ind (e2 :: tl2) ++ (ws ++ ']' :: rest)))
              = some (e2 :: tl2, rest) :=
            ihe (e2 :: tl2) ind (nlIndent ind) ws rest hce.2 (by simp)
              (nlIndent_all_ws ind) hws hf2.2
          simp only [hrec]

/-- Strict `json.loads` inverts `json.dumps(indent=2)` on clean values. -/
theorem pyLoads_render (v : JValue) (h : cleanV v = true) :
    pyLoads (renderVal 0 v) = some v := by
  have hrt := (rt_fuel ((renderVal 0 v).length + 1)).1 v 0 [] h (by decide)
    (by omega)
  rw [List.append_nil] at hrt
  simp [pyLoads, hrt, skipWsJ]

/-! #### The rendered block contains no backtick -/

theorem digit_ne_bq {c : Char} (h : isDigitCh c = true) : ¬ c = bquote := by
  intro he
  subst he
  exact absurd h (by decide)

theorem intChars_no_bq (i : Int) : ∀ c ∈ intChars i, ¬ c = bquote := by
  intro c hc
  by_cases h : i < 0 <;> simp [intChars, h] at hc
  · rcases hc with rfl | hc
    · decide
    · exact digit_ne_bq (natDigits_digits _ c hc)
  · exact digit_ne_bq (natDigits_digits _ c hc)

theorem escapeChar_no_bq {c : Char} (h : cleanChar c = true) :
    ∀ ch ∈ escapeChar c, ¬ ch = bquote := by
  intro ch hch
  rcases escapeChar_clean h with ⟨_, hr⟩ | ⟨_, hr⟩ | ⟨_, _, hr⟩ <;>
    rw [hr] at hch <;> simp at hch
  · rcases hch with rfl | rfl <;> decide
  · rcases hch with rfl | rfl <;> decide
  · subst hch
    exact (cleanChar_spec h).2.2

theorem renderStrChars_no_bq (s : List Char) (h : cleanStr s = true) :
    ∀ c ∈ renderStrChars s, ¬ c = bquote := by
  intro c hc
  simp only [renderStrChars, List.mem_cons, List.mem_append,
    List.mem_singleton, List.not_mem_nil, or_false] at hc
  rcases hc with rfl | hc | rfl
  · decide
  · obtain ⟨cs, hcs, hcmem⟩ := List.mem_flatten.1 hc
    obtain ⟨c0, hc0, rfl⟩ := List.mem_map.1 hcs
    have h0 : cleanChar c0 = true := by
      simp only [cleanStr, List.all_eq_true] at h
      exact h c0 hc0
    exact escapeChar_no_bq h0 c hcmem
  · decide

theorem nlIndent_no_bq (ind : Nat) : ∀ c ∈ nlIndent ind, ¬ c = bquote := by
  intro c hc
  simp only [nlIndent, List.mem_cons] at hc
  rcases hc with rfl | hc
  · decide
  · rw [List.eq_of_mem_replicate hc]
    decide

/-- The rendering of a clean value contains no backtick (stated with a
size bound so that the three mutually recursive renderers can be handled
by one induction). -/
theorem render_no_bq_all : ∀ n : Nat,
    (∀ v ind, sizeOf v < n → cleanV v = true →
        ∀ c ∈ renderVal ind v, ¬ c = bquote) ∧
    (∀ es ind, sizeOf es < n → cleanL es = true →
        ∀ c ∈ renderElems ind es, ¬ c = bquote) ∧
    (∀ ms ind, sizeOf ms < n → cleanM ms = true →
        ∀ c ∈ renderMembers ind ms, ¬ c = bquote) := by
  intro n
  induction n with
  | zero =>
    exact ⟨fun v _ h => absurd h (by omega),
      fun es _ h => absurd h (by omega),
      fun ms _ h => absurd h (by omega)⟩
  | succ n ih =>
    obtain ⟨ihv, ihe, ihm⟩ := ih
    refine ⟨?_, ?_, ?_⟩
    · intro v ind hsz h
      cases v with
      | jnull =>
        intro c hc
        simp [renderVal] at hc
        rcases hc with rfl | rfl | rfl
        repeat decide
      | jbool b =>
        cases b with
        | false =>
          intro c hc
          simp [renderVal] at hc
          rcases hc with rfl | rfl | rfl | rfl | rfl
          repeat decide
        | true =>
          intro c hc
          simp [renderVal] at hc
          rcases hc with rfl | rfl | rfl | rfl
          repeat decide
      | jint m => exact intChars_no_bq m
      | jfloat m e => exact absurd h (by simp [cleanV])
      | jstr s => exact renderStrChars_no_bq s (by simpa [cleanV] using h)
      | jarr es =>
        cases es with
        | nil =>
          intro c hc
          simp [renderVal] at hc
          rcases hc with rfl | rfl
          repeat decide
        | cons e tl =>
          have hcl : cleanL (e :: tl) = true := by simpa [cleanV] using h
          have hsz2 : sizeOf (e :: tl) < n := by simp at hsz; simp; omega
          simp only [renderVal, List.append_assoc, List.forall_mem_cons,
            List.forall_mem_append, List.forall_mem_singleton]
          exact ⟨by decide, fun c hc => nlIndent_no_bq _ c hc,
            fun c hc => ihe (e :: tl) (ind+2) hsz2 hcl c hc,
            fun c hc => nlIndent_no_bq _ c hc, by decide⟩
      | jobj ms =>
        cases ms with
        | nil =>
          intro c hc
          simp [renderVal] at hc
          rcases hc with rfl | rfl
          repeat decide
        | cons m tl =>
          have hcm : cleanM (m :: tl) = true := by simpa [cleanV] using h
          have hsz2 : sizeOf (m :: tl) < n := by simp at hsz; simp; omega
          simp only [renderVal, List.append_assoc, List.forall_mem_cons,
            List.forall_mem_append, List.forall_mem_singleton]
          exact ⟨by decide, fun c hc => nlIndent_no_bq _ c hc,
            fun c hc => ihm (m :: tl) (ind+2) hsz2 hcm c hc,
            fun c hc => nlIndent_no_bq _ c hc, by decide⟩
    · intro es ind hsz h
      cases es with
      | nil =>
        intro c hc
        simp [renderElems] at hc
      | cons e tl =>
        have h1 : cleanV e = true ∧ cleanL tl = true := by simpa [cleanL] using h
        have hsze : sizeOf e < n := by simp at hsz; omega
        cases tl with
        | nil =>
          have he : renderElems ind [e] = renderVal ind e := by
            simp [renderElems]
          rw [he]
          exact ihv e ind hsze h1.1
        | cons e2 tl2 =>
          have hsz2 : sizeOf (e2 :: tl2) < n := by simp at hsz; simp; omega
          simp only [renderElems, List.append_assoc, List.forall_mem_cons,
            List.forall_mem_append]
          exact ⟨fun c hc => ihv e ind hsze h1.1 c hc, by decide,
            fun c hc => nlIndent_no_bq _ c hc,
            fun c hc => ihe (e2 :: tl2) ind hsz2 h1.2 c hc⟩
    · intro ms ind hsz h
      cases ms with
      | nil =>
        intro c hc
        simp [renderMembers] at hc
      | cons m tl =>
        obtain ⟨k, v⟩ := m
        obtain ⟨hk, hv, _, hctl⟩ := cleanM_cons h
        have hszv : sizeOf v < n := by simp at hsz; omega
        cases tl with
        | nil =>
          simp only [renderMembers, List.append_assoc, List.forall_mem_cons,
            List.forall_mem_append]
          exact ⟨fun c hc => renderStrChars_no_bq k hk c hc, by decide,
            by decide, fun c hc => ihv v ind hszv hv c hc⟩
        | cons m2 tl2 =>
          have hsz2 : sizeOf (m2 :: tl2) < n := by simp at hsz; simp; omega
          simp only [renderMembers, List.append_assoc, List.forall_mem_cons,
            List.forall_mem_append]
          exact ⟨fun c hc => renderStrChars_no_bq k hk c hc,
            ⟨by decide, by decide, fun c hc => ihv v ind hszv hv c hc⟩,
            by decide, fun c hc => nlIndent_no_bq _ c hc,
            fun c hc => ihm (m2 :: tl2) ind hsz2 hctl c hc⟩

theorem renderVal_no_bq (ind : Nat) (v : JValue) (h : cleanV v = true) :
    ∀ c ∈ renderVal ind v, ¬ c = bquote :=
  (render_no_bq_all (sizeOf v + 1)).1 v ind (by omega) h

theorem renderMembers_no_bq (ind : Nat) (ms : List (List Char × JValue))
    (h : cleanM ms = true) : ∀ c ∈ renderMembers ind ms, ¬ c = bquote :=
  (render_no_bq_all (sizeOf ms + 1)).2.2 ms ind (by omega) h

/-! #### The lazy fenced capture of a backtick-free body -/

theorem dropPySpaces_cons_sp {c : Char} (l : List Char)
    (h : isPySpace c = true) : dropPySpaces (c :: l) = dropPySpaces l := by
  simp [dropPySpaces, h]

theorem dropPySpaces_cons_nsp {c : Char} (l : List Char)
    (h : isPySpace c = false) : dropPySpaces (c :: l) = c :: l := by
  simp [dropPySpaces, h]

theorem dropPySpaces_head_nb : ∀ (mid l : List Char),
    (∀ c ∈ mid, ¬ c = bquote) →
    ∃ c rest2, dropPySpaces (mid ++ rbrace :: l) = c :: rest2 ∧ ¬ c = bquote := by
  intro mid
  induction mid with
  | nil =>
    intro l _
    exact ⟨rbrace, l, dropPySpaces_cons_nsp l (by decide), by decide⟩
  | cons c t ih =>
    intro l h
    by_cases hsp : isPySpace c = true
    · rw [List.cons_append, dropPySpaces_cons_sp _ hsp]
      exact ih l (fun x hx => h x (by simp [hx]))
    · refine ⟨c, t ++ rbrace :: l, ?_, h c (by simp)⟩
      rw [List.cons_append]
      exact dropPySpaces_cons_nsp _ (by simpa using hsp)

theorem fenceAfter_of_head {x : List Char} {c : Char} {r2 : List Char}
    (h : dropPySpaces x = c :: r2) (hc : ¬ c = bquote) :
    fenceAfter x = false := by
  simp only [fenceAfter, h]
  cases r2 with
  | nil => rfl
  | cons a r3 =>
    cases r3 with
    | nil => rfl
    | cons b r4 => simp [hc]

theorem fenceAfter_false (mid : List Char) (l : List Char)
    (h : ∀ c ∈ mid, ¬ c = bquote) :
    fenceAfter (mid ++ rbrace :: l) = false := by
  obtain ⟨c, r2, hd, hc⟩ := dropPySpaces_head_nb mid l h
  exact fenceAfter_of_head hd hc

/-- Scanning a backtick-free body, the lazy `[\s\S]*?})`-before-a-fence
capture stops exactly at the final `}` before the closing fence. -/
theorem braceLazyEnd_exact : ∀ (mid acc : List Char),
    (∀ c ∈ mid, ¬ c = bquote) →
    braceLazyEnd acc (mid ++ rbrace :: (Char.ofNat 10 :: fenceBareTag))
      = some (acc.reverse ++ (mid ++ [rbrace])) := by
  intro mid
  induction mid with
  | nil =>
    intro acc _
    simp only [List.nil_append]
    simp only [braceLazyEnd]
    rw [if_pos (by decide)]
  | cons c t ih =>
    intro acc h
    simp only [List.cons_append, braceLazyEnd, List.append_eq]
    rw [if_neg ?_]
    · rw [ih (c :: acc) (fun x hx => h x (by simp [hx]))]
      simp
    · by_cases hc : c = rbrace
      · rw [fenceAfter_false t _ (fun x hx => h x (by simp [hx]))]
        simp
      · simp [hc]

/-- At the start of the serialized block, the `json`-tagged fenced pattern
captures exactly the rendered object. -/
theorem fencedCaptureAt_render (ms : List (List Char × JValue))
    (hcm : cleanM ms = true) (hne : ¬ ms = []) :
    fencedCaptureAt fenceJsonTag (render_fenced (JValue.jobj ms))
      = some (renderVal 0 (JValue.jobj ms)) := by
  match ms, hne with
  | m :: tl, _ =>
    have hmid : ∀ c ∈ nlIndent 2 ++ renderMembers 2 (m :: tl) ++ nlIndent 0,
        ¬ c = bquote := by
      intro c hc
      simp only [List.mem_append] at hc
      rcases hc with (hc | hc) | hc
      · exact nlIndent_no_bq _ c hc
      · exact renderMembers_no_bq 2 (m :: tl) hcm c hc
      · exact nlIndent_no_bq _ c hc
    have hpre : fenceJsonTag.isPrefixOf (render_fenced (JValue.jobj (m :: tl)))
        = true := by
      rw [List.isPrefixOf_iff_prefix]
      exact ⟨_, rfl⟩
    have hdrop : (render_fenced (JValue.jobj (m :: tl))).drop
          fenceJsonTag.length
        = Char.ofNat 10 :: (renderVal 0 (JValue.jobj (m :: tl))
            ++ Char.ofNat 10 :: fenceBareTag) := by
      simp only [render_fenced]
      exact List.drop_left _ _
    have hval : renderVal 0 (JValue.jobj (m :: tl))
        = lbrace :: ((nlIndent 2 ++ renderMembers 2 (m :: tl) ++ nlIndent 0)
            ++ [rbrace]) := by
      simp [renderVal]
    simp only [fencedCaptureAt, hpre, if_true, hdrop]
    have hdp : dropPySpaces (Char.ofNat 10
          :: (renderVal 0 (JValue.jobj (m :: tl))
            ++ Char.ofNat 10 :: fenceBareTag))
        = lbrace :: (((nlIndent 2 ++ renderMembers 2 (m :: tl) ++ nlIndent 0)
            ++ [rbrace]) ++ Char.ofNat 10 :: fenceBareTag) := by
      rw [hval, List.cons_append]
      rw [dropPySpaces_cons_sp _ (by decide), dropPySpaces_cons_nsp _ (by decide)]
    rw [hdp]
    dsimp only
    rw [if_pos rfl]
    have harr : ((nlIndent 2 ++ renderMembers 2 (m :: tl) ++ nlIndent 0)
          ++ [rbrace]) ++ Char.ofNat 10 :: fenceBareTag
        = (nlIndent 2 ++ renderMembers 2 (m :: tl) ++ nlIndent 0)
            ++ rbrace :: (Char.ofNat 10 :: fenceBareTag) := by
      simp
    rw [harr, braceLazyEnd_exact _ [lbrace] hmid, hval]
    simp

theorem findFirstCapture_cons_some {f : List Char → Option (List Char)}
    {c : Char} {rest x : List Char} (h : f (c :: rest) = some x) :
    findFirstCapture f (c :: rest) = some x := by
  simp [findFirstCapture, h]

/-- The serialized fenced block is located by the first (json-tagged)
locator, capturing exactly the rendered object. -/
theorem locate_candidate_render (ms : List (List Char × JValue))
    (hcm : cleanM ms = true) (hne : ¬ ms = []) :
    locate_candidate (render_fenced (JValue.jobj ms))
      = some (renderVal 0 (JValue.jobj ms)) := by
  have hcons : render_fenced (JValue.jobj ms)
      = bquote :: ([bquote, bquote, 'j', 's', 'o', 'n']
          ++ Char.ofNat 10 :: (renderVal 0 (JValue.jobj ms)
            ++ Char.ofNat 10 :: fenceBareTag)) := by
    simp [render_fenced, fenceJsonTag]
  have hfj : findFencedJson (render_fenced (JValue.jobj ms))
      = some (renderVal 0 (JValue.jobj ms)) := by
    rw [findFencedJson, hcons]
    exact findFirstCapture_cons_some
      (by rw [← hcons]; exact fencedCaptureAt_render ms hcm hne)
  simp [locate_candidate, hfj]

theorem pyStrip_nonspace_ends {a b : Char} (mid : List Char)
    (ha : isPySpace a = false) (hb : isPySpace b = false) :
    pyStrip (a :: (mid ++ [b])) = a :: (mid ++ [b]) := by
  simp [pyStrip, List.dropWhile_cons, ha, hb]

/-- Claim C7 (amended): round-trip stability of the strict-parse path holds
on the clean class of records — no floats, keys and string values made of
printable ASCII without backticks, and duplicate-free keys at every level.
For every such record, serializing it into a JSON-tagged fenced code block
and re-running `extract_json_from_text` reproduces the identical record:
the json-fence locator captures exactly the rendered object (its body
contains no backtick, so the lazy capture stops at the final brace), and
strict parsing inverts the rendering. -/
theorem claim_C7_amended_clean_roundtrip (ms : List (List Char × JValue))
    (h : cleanM ms = true) :
    extract_json_from_text (render_fenced (JValue.jobj ms))
      = some (JValue.jobj ms) := by
  cases ms with
  | nil => rfl
  | cons m tl =>
    have hloc := locate_candidate_render (m :: tl) h (by simp)
    have hval : renderVal 0 (JValue.jobj (m :: tl))
        = lbrace :: ((nlIndent 2 ++ renderMembers 2 (m :: tl) ++ nlIndent 0)
            ++ [rbrace]) := by
      simp [renderVal]
    have hstrip : pyStrip (renderVal 0 (JValue.jobj (m :: tl)))
        = renderVal 0 (JValue.jobj (m :: tl)) := by
      rw [hval]
      exact pyStrip_nonspace_ends _ (by decide) (by decide)
    refine extract_strict_passthrough _ _ _ hloc ?_
    rw [hstrip]
    exact pyLoads_render (JValue.jobj (m :: tl)) (by simpa [cleanV] using h)

/-- A concrete clean record for the amended C7 claim: one schema field
with nested value/from/to members. -/
def c7w_members : List (List Char × JValue) :=
  [(("Revenue").data, JValue.jobj
      [(("value").data, JValue.jint 1000000),
       (("from").data, JValue.jstr (("2022-01-01").data)),
       (("to").data, JValue.jstr (("2022-12-31").data))])]

theorem claim_C7_amended_witness :
    cleanM c7w_members = true ∧
    extract_json_from_text (render_fenced (JValue.jobj c7w_members))
      = some (JValue.jobj c7w_members) :=
  ⟨rfl, claim_C7_amended_clean_roundtrip c7w_members rfl⟩
